import Mathlib

/-!
Verification of the MILP-based Kantchelian attack on tree ensembles
(`groot/verification/kantchelian_attack.py`).

The Python module compiles a tree ensemble into a mixed-integer linear
program: one binary variable per unique `(feature, threshold)` split, one
continuous `[0,1]` variable per leaf, consistency/ordering/coupling
constraints, an L-infinity distance variable, and per-sample "mislabel"
and distance constraints.  Feature vectors, thresholds and leaf values are
modelled over `ℚ` (exact arithmetic); the external Gurobi solver is
modelled as an oracle producing either "infeasible" or an assignment of
the model's variables.
-/

set_option maxHeartbeats 2000000

namespace GROOT

/-- Binary decision tree as parsed from the ensemble JSON: an internal
node tests `x[attr] < th`; the `yes` child is the branch taken when the
test holds (the Python `dfs`/`check` both resolve `tree["yes"]` to the
`x < threshold` branch).  Node ids only serve child-link resolution and
diagnostics in the source, so resolved trees omit them. -/
inductive JTree where
  | leaf (v : ℚ)
  | node (attr : ℕ) (th : ℚ) (yes no : JTree)
deriving Repr, DecidableEq

namespace JTree

/-- Number of leaves of a tree. -/
def numLeaves : JTree → ℕ
  | .leaf _ => 1
  | .node _ _ a b => numLeaves a + numLeaves b

/-- Leaf values in left-to-right (yes-before-no) traversal order, negated
when the tree belongs to the `neg_json_input` sub-ensemble. -/
def leafVals (neg : Bool) : JTree → List ℚ
  | .leaf v => [if neg then -v else v]
  | .node _ _ a b => leafVals neg a ++ leafVals neg b

end JTree

/-- Manual single-tree evaluation, as in `KantchelianAttack.check`: walk
down by comparing `x[attribute] < threshold` and return the leaf value. -/
def check1 (x : ℕ → ℚ) : JTree → ℚ
  | .leaf v => v
  | .node a t yes no => if x a < t then check1 x yes else check1 x no

/-- Manual ensemble evaluation (`KantchelianAttack.check`): sum of the
per-tree leaf values reached by `x`. -/
def check (x : ℕ → ℚ) (trees : List JTree) : ℚ := (trees.map (check1 x)).sum

/-- Python's `round(threshold, round_digits)` modelled on `ℚ`: scale by
`10 ^ d`, round to an integer, scale back.  (Python rounds exact halves
to even; we round halves up.  Exact half-ulp ties never occur in the
concrete inputs considered, and no theorem below depends on the tie
rule.) -/
def pyRound (d : ℕ) (q : ℚ) : ℚ := (⌊q * 10 ^ d + 1 / 2⌋ : ℤ) / 10 ^ d

/-- One recorded occurrence of a unique split inside some tree: the global
leaf indices of its left (`yes`, `x < th`) and right subtree, plus the
root marker appended by `node_wrapper.add_leaves` (the `"root"` tag). -/
structure Occ where
  left : List ℕ
  right : List ℕ
  root : Bool
deriving Repr, DecidableEq

/-- A unique split (`node_wrapper`): its feature index (source field
`attribute`, a Lean keyword, hence `attr` here), rounded threshold, and
the list of its occurrences (`leaves_lists`).  The `node_pos` diagnostic
list of the source is appended in lockstep with `leaves_lists` and is
not used by the encoding, so it is omitted. -/
structure NodeW where
  attr : ℕ
  threshold : ℚ
  leaves_lists : List Occ
deriving Repr, DecidableEq

/-- The `(feature, rounded threshold)` key of a unique split. -/
def NodeW.pair (nw : NodeW) : ℕ × ℚ := (nw.attr, nw.threshold)

/-- Compiler state threaded through `dfs`: `node_list` of unique splits,
the flat `leaf_v_list`, and the `node_check` dictionary mapping a
`(attribute, threshold)` pair to its index in `node_list`. -/
structure CState where
  node_list : List NodeW
  leaf_v_list : List ℚ
  node_check : List ((ℕ × ℚ) × ℕ)
deriving Repr

/-- Initial compiler state. -/
def CState.empty : CState := ⟨[], [], []⟩

/-- Dictionary lookup in `node_check`. -/
def lookupNC (nc : List ((ℕ × ℚ) × ℕ)) (pr : ℕ × ℚ) : Option ℕ :=
  (nc.find? (fun e => decide (e.1 = pr))).map (·.2)

/-- Append an occurrence to the unique split at index `idx`
(`node_wrapper.add_leaves` on an existing entry). -/
def addOccAt (nl : List NodeW) (idx : ℕ) (o : Occ) : List NodeW :=
  match nl.get? idx with
  | some nw => nl.set idx { nw with leaves_lists := nw.leaves_lists ++ [o] }
  | none => nl

/-- The compiler pass `dfs` of `KantchelianAttack.__init__`: post-order
walk appending leaf values to `leaf_v_list` (returning the subtree's
global leaf indices) and merging split nodes with equal
`(attribute, rounded threshold)` into one `node_list` entry via
`node_check`. -/
def dfs (d : ℕ) (neg : Bool) : JTree → Bool → CState → CState × List ℕ
  | .leaf v, _, s =>
      ({ s with leaf_v_list := s.leaf_v_list ++ [if neg then -v else v] },
       [s.leaf_v_list.length])
  | .node a t yes no, root, s =>
      let th := pyRound d t
      let r1 := dfs d neg yes false s
      let r2 := dfs d neg no false r1.1
      let s2 := r2.1
      match lookupNC s2.node_check (a, th) with
      | none =>
          ({ s2 with
              node_list := s2.node_list ++ [⟨a, th, [⟨r1.2, r2.2, root⟩]⟩],
              node_check := s2.node_check ++ [((a, th), s2.node_list.length)] },
           r1.2 ++ r2.2)
      | some idx =>
          ({ s2 with node_list := addOccAt s2.node_list idx ⟨r1.2, r2.2, root⟩ },
           r1.2 ++ r2.2)

/-- One iteration of the binary compile loop: run `dfs` on the next tree
with `root := true` and record the running leaf count. -/
def compileStep (d : ℕ) (acc : CState × List ℕ) (t : JTree) : CState × List ℕ :=
  let r := dfs d false t true acc.1
  (r.1, acc.2 ++ [r.1.leaf_v_list.length])

/-- The binary-classification compile loop of `KantchelianAttack.__init__`:
`dfs` over every tree of `json_model`, accumulating `leaf_count`
(which starts as `[0]`). -/
def compileBinary (d : ℕ) (trees : List JTree) : CState × List ℕ :=
  trees.foldl (compileStep d) (CState.empty, [0])

/-! ### The `pdict` grouping and split-ordering / guard-shrink pass -/

/-- One step of building the `pdict` dictionary: append `(threshold, i)`
to the feature's list if the feature key exists, otherwise add the key. -/
def pdStep (pd : List (ℕ × List (ℚ × ℕ))) (e : ℕ × NodeW) : List (ℕ × List (ℚ × ℕ)) :=
  if pd.any (fun kv => kv.1 == e.2.attr) then
    pd.map (fun kv =>
      if kv.1 == e.2.attr then (kv.1, kv.2 ++ [(e.2.threshold, e.1)]) else kv)
  else pd ++ [(e.2.attr, [(e.2.threshold, e.1)])]

/-- Build the `pdict` dictionary of `KantchelianAttack.__init__`: iterate
`node_list` with its index and group `(threshold, variable index)` pairs
by feature, keys in first-appearance order. -/
def pdictRaw (nl : List NodeW) : List (ℕ × List (ℚ × ℕ)) :=
  (nl.enum).foldl pdStep []

/-- Sort one feature's `(threshold, variable)` list by threshold, a
stable sort exactly like Python's `list.sort(key=lambda tup: tup[0])`
(the source skips singletons, on which sorting is the identity anyway). -/
def sortByTh (lst : List (ℚ × ℕ)) : List (ℚ × ℕ) :=
  lst.insertionSort (fun a b => a.1 ≤ b.1)

/-- The `pdict` after the per-feature sort performed while adding the
split ordering constraints. -/
def sortedPdict (nl : List NodeW) : List (ℕ × List (ℚ × ℕ)) :=
  (pdictRaw nl).map (fun kv => (kv.1, sortByTh kv.2))

/-- Consecutive pairs of a list (used for the `var[i] <= var[i+1]`
ordering constraints and the minimum-gap computation). -/
def consecPairs {α : Type} (l : List α) : List (α × α) := l.zip (l.drop 1)

/-- The `min_diff` computed for one feature: minimum of consecutive
threshold differences of the sorted list, starting from the `1000`
sentinel. -/
def minDiffOf (lst : List (ℚ × ℕ)) : ℚ :=
  ((consecPairs lst).map (fun ab => ab.2.1 - ab.1.1)).foldl min 1000

/-- The guard-value update for one feature (lines 230–247 of the source):
if the feature has more than one split and its `min_diff` is below twice
the current guard value, shrink the guard value to `min_diff / 3`. -/
def guardStep (g : ℚ) (kv : ℕ × List (ℚ × ℕ)) : ℚ :=
  if 1 < kv.2.length then
    let md := minDiffOf kv.2
    if md < 2 * g then md / 3 else g
  else g

/-- The final guard value after the construction loop over all features. -/
def guardFold (g0 : ℚ) (pd : List (ℕ × List (ℚ × ℕ))) : ℚ :=
  pd.foldl guardStep g0

/-- The true minimum consecutive threshold gap of one feature's sorted
split list (no `1000` sentinel); `0` for lists with fewer than two
entries. -/
def minGapOf (lst : List (ℚ × ℕ)) : ℚ :=
  match (consecPairs lst).map (fun ab => ab.2.1 - ab.1.1) with
  | [] => 0
  | dd :: ds => ds.foldl min dd

/-! ### The L-infinity distance vectors of `attack` -/

/-- The lower end of interval `j` of a feature's threshold axis
(`axis[j]`, where `axis = [-inf] + thresholds + [inf]`); `none` encodes
`-inf`. -/
def axisLo (ts : List ℚ) (j : ℕ) : Option ℚ :=
  if j = 0 then none else ts.get? (j - 1)

/-- The upper end of interval `j` of a feature's threshold axis
(`axis[j+1]`); `none` encodes `+inf`. -/
def axisHi (ts : List ℚ) (j : ℕ) : Option ℚ := ts.get? j

/-- The `w[i-1]` entry for one axis interval, as computed by the loop in
`KantchelianAttack.attack`: `0` when `x` lies in the interval, the
distance to the interval's lower end when `x` is below it, and the
guarded distance past the interval's upper end when `x` is at or above
it.  The remaining case raises `ValueError("wrong axis ordering")` in
the source and is unreachable for sorted thresholds. -/
def wEntry (g xv : ℚ) (lo hi : Option ℚ) : ℚ :=
  let belowHi := hi.all (fun u => decide (xv < u))
  let aboveLo := lo.all (fun v => decide (v ≤ xv))
  if belowHi && aboveLo then 0
  else if belowHi then |xv - lo.getD 0|
  else if aboveLo then |xv - hi.getD 0 + g|
  else 0

/-- The vector `w` (length `len(thresholds) + 1`) before differencing. -/
def wIntervals (g xv : ℚ) (ts : List ℚ) : List ℚ :=
  (List.range (ts.length + 1)).map (fun j => wEntry g xv (axisLo ts j) (axisHi ts j))

/-- The in-place differencing `w[i] -= w[i+1]` for `i` ascending (each
`w[i+1]` is still unmodified when read), leaving the last entry
unchanged. -/
def diffW : List ℚ → List ℚ
  | [] => []
  | [a] => [a]
  | a :: b :: rest => (a - b) :: diffW (b :: rest)

/-! ### Constraint checkers (the MILP's feasible region over `ℚ`) -/

/-- Integrality of the binary split variables `P` (`vtype=GRB.BINARY`). -/
def binaryVarsOK (n : ℕ) (p : ℕ → ℚ) : Bool :=
  (List.range n).all (fun i => decide (p i = 0) || decide (p i = 1))

/-- Bounds of the continuous leaf variables `L` (`lb=0, ub=1`). -/
def leafBoundsOK (n : ℕ) (l : ℕ → ℚ) : Bool :=
  (List.range n).all (fun j => decide (0 ≤ l j) && decide (l j ≤ 1))

/-- The split ordering constraints `p_consis`: for each feature, each
consecutive pair of the sorted list satisfies `var[i] <= var[i+1]`. -/
def orderingOK (pd : List (ℕ × List (ℚ × ℕ))) (p : ℕ → ℚ) : Bool :=
  pd.all (fun kv => (consecPairs kv.2).all (fun ab => decide (p ab.1.2 ≤ p ab.2.2)))

/-- Integer interval `[a, b)` as a list. -/
def idxRange (a b : ℕ) : List ℕ := List.range' a (b - a)

/-- The per-tree `leaf_sum_one` constraints: the leaf variables of each
tree's contiguous global index range sum to `1`. -/
def leafSumOK (lc : List ℕ) (l : ℕ → ℚ) : Bool :=
  (List.range (lc.length - 1)).all (fun i =>
    decide (((idxRange (lc.getD i 0) (lc.getD (i + 1) 0)).map l).sum = 1))

/-- The node-leaf coupling constraints for one occurrence of a unique
split with variable value `pj`: equalities for a root occurrence,
inequalities otherwise (lines 260–283 of the source). -/
def occConstrOK (pj : ℚ) (l : ℕ → ℚ) (o : Occ) : Bool :=
  let sl := (o.left.map l).sum
  let sr := (o.right.map l).sum
  if o.root then decide (sl - pj = 0) && decide (sr + pj = 1)
  else decide (sl - pj ≤ 0) && decide (sr + pj ≤ 1)

/-- All node-leaf coupling constraints: the double loop over
`range(len(self.node_list))` and each entry's `leaves_lists`. -/
def nodeLeafOK (nl : List NodeW) (p l : ℕ → ℚ) : Bool :=
  (List.range nl.length).all (fun j =>
    ((nl.getD j ⟨0, 0, []⟩).leaves_lists).all (occConstrOK (p j) l))

/-- The `mislabel` constraint: for a non-binary attacker or `label = 1`,
force the weighted leaf sum below `pred_threshold - guard_val`;
otherwise force it above `pred_threshold + guard_val`. -/
def mislabelOK (binary : Bool) (label : ℕ) (lv : List ℚ) (l : ℕ → ℚ) (pt g : ℚ) : Bool :=
  let s := ((lv.enum).map (fun jv => jv.2 * l jv.1)).sum
  if !binary || label == 1 then decide (s ≤ pt - g) else decide (pt + g ≤ s)

/-- One per-feature L-infinity constraint
`LinExpr(w[:-1], p-vars) + w[-1] <= B`. -/
def linfConstrOK (g : ℚ) (x : ℕ → ℚ) (kv : ℕ × List (ℚ × ℕ)) (p : ℕ → ℚ) (b : ℚ) : Bool :=
  let w := diffW (wIntervals g (x kv.1) (kv.2.map (·.1)))
  decide (((w.dropLast.zip (kv.2.map (fun ti => p ti.2))).map (fun cv => cv.1 * cv.2)).sum
      + w.getLastD 0 ≤ b)

/-- All per-feature L-infinity distance constraints of `attack`. -/
def linfOK (g : ℚ) (x : ℕ → ℚ) (pd : List (ℕ × List (ℚ × ℕ))) (p : ℕ → ℚ) (b : ℚ) : Bool :=
  pd.all (fun kv => linfConstrOK g x kv p b)

/-- Python truthiness of the `epsilon` constructor argument
(`if epsilon:`): `None` and `0.0` are falsy. -/
def pyTruthy : Option ℚ → Bool
  | none => false
  | some e => e != 0

/-- The upper bound given to the distance variable `B` at construction
time (for `order = np.inf`): `epsilon - 0.0001` when `epsilon` is
truthy, otherwise no upper bound. -/
def bUB (epsilon : Option ℚ) : Option ℚ :=
  if pyTruthy epsilon then some (epsilon.getD 0 - 1 / 10000) else none

/-- The bound constraints on the distance variable `B` (`lb = 0`, plus
the optional construction-time upper bound). -/
def bBoundsOK (epsilon : Option ℚ) (b : ℚ) : Bool :=
  decide (0 ≤ b) &&
    (match bUB epsilon with
     | some u => decide (b ≤ u)
     | none => true)

/-! ### The feasibility query `attack` and the minimal-distance query
`optimal_adversarial_example` -/

/-- Whole feasible region of the MILP solved by `KantchelianAttack.attack`
on a binary model: the construction-time constraints (integrality,
bounds, ordering, leaf sums, node-leaf coupling) plus the per-sample
`mislabel` and L-infinity constraints, with the guard value as left by
the construction loop. -/
def attackFeasOK (epsilon : Option ℚ) (d : ℕ) (g0 pt : ℚ) (trees : List JTree)
    (x : ℕ → ℚ) (label : ℕ) (p l : ℕ → ℚ) (b : ℚ) : Bool :=
  let st := compileBinary d trees
  let pd := sortedPdict st.1.node_list
  let g := guardFold g0 pd
  binaryVarsOK st.1.node_list.length p && leafBoundsOK st.1.leaf_v_list.length l &&
    orderingOK pd p && leafSumOK st.2 l && nodeLeafOK st.1.node_list p l &&
    mislabelOK true label st.1.leaf_v_list l pt g &&
    linfOK g x pd p b && bBoundsOK epsilon b

/-- Existence of a point in the feasible region of the `attack` MILP. -/
def FeasibleAttack (epsilon : Option ℚ) (d : ℕ) (g0 pt : ℚ) (trees : List JTree)
    (x : ℕ → ℚ) (label : ℕ) : Prop :=
  ∃ p l b, attackFeasOK epsilon d g0 pt trees x label p l b = true

/-- Robustness at radius `epsilon` as reported by `attack`: the MILP has
no feasible point (Gurobi status 3), i.e. no adversarial example exists
within the radius. -/
def RobustAt (epsilon : Option ℚ) (d : ℕ) (g0 pt : ℚ) (trees : List JTree)
    (x : ℕ → ℚ) (label : ℕ) : Prop :=
  ¬ FeasibleAttack epsilon d g0 pt trees x label

/-- Gurobi's status code for an infeasible model. -/
def GRB_INFEASIBLE : ℕ := 3

/-- The tail of `KantchelianAttack.attack` as executed against a solver
reporting `status`: set the constant objective `0`, optimize, and return
`status == 3`.  Infeasibility is an ordinary `true` return, not an
exception. -/
def attackReturn (status : ℕ) : Bool := status == GRB_INFEASIBLE

/-- The constant objective set by `attack` (`self.m.setObjective(0, ...)`). -/
def attackObjective : ℚ := 0

/-- The binary-class prediction used by `optimal_adversarial_example`:
`1 if self.check(sample, self.json_model) >= self.pred_threshold else 0`. -/
def predBinary (pt : ℚ) (trees : List JTree) (x : ℕ → ℚ) : ℕ :=
  if pt ≤ check x trees then 1 else 0

/-- The per-split nudge of the reconstruction loop (lines 441–446): two
sequential `if`s over the solved variable value `pv` and the running
feature value `xv`.  `pv > 0.5` together with `xv` at or above the
threshold pushes `xv` just below it; `pv <= 0.5` together with `xv`
below the threshold pushes `xv` just above it. -/
def reconStep (g : ℚ) (xv : ℚ) (tpv : ℚ × ℚ) : ℚ :=
  let xv1 := if 1 / 2 < tpv.2 ∧ tpv.1 ≤ xv then tpv.1 - g else xv
  if tpv.2 ≤ 1 / 2 ∧ xv1 < tpv.1 then tpv.1 + g else xv1

/-- The reconstruction loop over one feature's sorted
`(threshold, solved value)` list. -/
def reconFold (g : ℚ) (xv : ℚ) (lst : List (ℚ × ℚ)) : ℚ := lst.foldl (reconStep g) xv

/-- The full reconstruction of the perturbed input from the solved split
variables: for each feature in `pdict`, fold the nudges over its sorted
split list. -/
def reconstruct (g : ℚ) (pd : List (ℕ × List (ℚ × ℕ))) (p : ℕ → ℚ) (x : ℕ → ℚ) :
    ℕ → ℚ :=
  pd.foldl
    (fun xc kv =>
      Function.update xc kv.1 (reconFold g (xc kv.1) (kv.2.map (fun ti => (ti.1, p ti.2)))))
    x

/-- `KantchelianAttack.optimal_adversarial_example` on a binary model,
with the solver modelled as an outcome: `none` for an infeasible MILP
(status 3), or `some (p, l)` for a solved assignment of the split and
leaf variables.  If the manual prediction already disagrees with the
asserted label the sample is returned as-is before any constraint is
added or the solver consulted; on an infeasible solve the result is
`None`; otherwise the perturbed input is rebuilt from the solved split
variables. -/
def optimal_adversarial_example (d : ℕ) (g0 pt : ℚ) (trees : List JTree)
    (solverOutcome : Option ((ℕ → ℚ) × (ℕ → ℚ))) (x : ℕ → ℚ) (label : ℕ) :
    Option (ℕ → ℚ) :=
  let pred := predBinary pt trees x
  if pred ≠ label then some x
  else
    match solverOutcome with
    | none => none
    | some pl =>
        let st := compileBinary d trees
        let pd := sortedPdict st.1.node_list
        let g := guardFold g0 pd
        some (reconstruct g pd pl.1 x)

/-! ### The multiclass decomposer -/

/-- One row of `KantchelianAttackMultiClass.binary_attackers`, identified
by the `(positive class, negative class)` pair of one-vs-all
sub-ensembles each attacker is built from.  The loop body appends `None`
on the diagonal and then unconditionally appends a freshly built
attacker (there is no `continue`). -/
def buildRow (c n : ℕ) : List (Option (ℕ × ℕ)) :=
  (List.range n).foldl
    (fun acc other =>
      (if c = other then acc ++ [none] else acc) ++ [some (c, other)])
    []

/-- The attackers queried by
`KantchelianAttackMultiClass.optimal_adversarial_example` for true class
`label`: `self.binary_attackers[label][other_label]` for every
`other_label ≠ label`. -/
def queriedAttackers (label n : ℕ) : List (Option (ℕ × ℕ)) :=
  ((List.range n).filter (fun o => o ≠ label)).map (fun o => (buildRow label n).getD o none)

/-- The attackers the specification says should be queried: the binary
attacker of the `(label, other_class)` pair for every
`other_class ≠ label`. -/
def specQueriedAttackers (label n : ℕ) : List (Option (ℕ × ℕ)) :=
  ((List.range n).filter (fun o => o ≠ label)).map (fun o => some (label, o))

/-! ### Reference enumerations used to state compiler correctness -/

/-- The internal nodes of a tree whose leaves occupy the global index
interval starting at `off`, listed in the same post-order in which `dfs`
records their occurrences, each with its `(feature, rounded threshold)`
key and the occurrence `dfs` would record for it (the contiguous global
leaf index ranges of its two subtrees plus the root flag). -/
def occsOf (d : ℕ) (off : ℕ) (root : Bool) : JTree → List ((ℕ × ℚ) × Occ)
  | .leaf _ => []
  | .node a t yes no =>
      occsOf d off false yes ++ occsOf d (off + yes.numLeaves) false no ++
        [((a, pyRound d t),
          ⟨List.range' off yes.numLeaves, List.range' (off + yes.numLeaves) no.numLeaves,
            root⟩)]

/-- All internal-node occurrences of an ensemble, trees in order, with
global leaf offsets accumulated. -/
def allOccsAux (d : ℕ) (off : ℕ) : List JTree → List ((ℕ × ℚ) × Occ)
  | [] => []
  | t :: ts => occsOf d off true t ++ allOccsAux d (off + t.numLeaves) ts

/-- All internal-node occurrences of an ensemble. -/
def allOccs (d : ℕ) (trees : List JTree) : List ((ℕ × ℚ) × Occ) := allOccsAux d 0 trees

/-- The occurrences recorded for pair `pr` in a compiled `node_list`: the
`leaves_lists` of the unique entry carrying that pair (empty when no
entry does). -/
def entryOccs (nl : List NodeW) (pr : ℕ × ℚ) : List Occ :=
  match nl.find? (fun nw => decide (nw.pair = pr)) with
  | some nw => nw.leaves_lists
  | none => []

/-- Global index of the leaf reached by input `x` in a tree whose leaves
occupy the global interval starting at `off`. -/
def pathIdx (x : ℕ → ℚ) : JTree → ℕ → ℕ
  | .leaf _, off => off
  | .node a t yes no, off =>
      if x a < t then pathIdx x yes off else pathIdx x no (off + yes.numLeaves)

/-- Raw (unrounded) thresholds of a tree. -/
def treeThresholds : JTree → List ℚ
  | .leaf _ => []
  | .node _ t yes no => t :: (treeThresholds yes ++ treeThresholds no)

/-- Raw thresholds of an ensemble. -/
def allThresholds (trees : List JTree) : List ℚ := (trees.map treeThresholds).flatten

/-- The sorted `pdict` of the compiled binary model of an ensemble. -/
def pdOf (d : ℕ) (trees : List JTree) : List (ℕ × List (ℚ × ℕ)) :=
  sortedPdict (compileBinary d trees).1.node_list

/-- The guard value left by `KantchelianAttack.__init__` for an ensemble,
starting from `guard_val = g0`. -/
def guardOf (d : ℕ) (g0 : ℚ) (trees : List JTree) : ℚ := guardFold g0 (pdOf d trees)

/-- The per-split nudge as the claim under scrutiny describes it (stated
for refutation): a variable rounding to taken while the feature value is
below the threshold pushes the value just above it, and a variable
rounding to not-taken while the feature value is at or above the
threshold pushes it just below. -/
def reconStepClaimed (g : ℚ) (xv : ℚ) (tpv : ℚ × ℚ) : ℚ :=
  let xv1 := if 1 / 2 < tpv.2 ∧ xv < tpv.1 then tpv.1 + g else xv
  if tpv.2 ≤ 1 / 2 ∧ tpv.1 ≤ xv1 then tpv.1 - g else xv1

/-! ### Derived notions used by the invariant proofs -/

/-- The `(feature, threshold)` pairs of a `node_list`, in order. -/
def pairsOf (nl : List NodeW) : List (ℕ × ℚ) := nl.map NodeW.pair

/-- The canonical `node_check` contents for a `node_list`: each pair maps
to its index. -/
def ncOf (nl : List NodeW) : List ((ℕ × ℚ) × ℕ) :=
  (pairsOf nl).enum.map (fun ip => (ip.2, ip.1))

/-- Well-formedness of a compiler state: `node_check` is exactly the
index map of `node_list` and no two entries share a pair. -/
def WFState (s : CState) : Prop :=
  s.node_check = ncOf s.node_list ∧ (pairsOf s.node_list).Nodup

/-- Lookup of one feature's split list in a `pdict`. -/
def pdLookup (pd : List (ℕ × List (ℚ × ℕ))) (a : ℕ) : List (ℚ × ℕ) :=
  match pd.find? (fun kv => kv.1 == a) with
  | some kv => kv.2
  | none => []

/-- The feature keys of a `pdict`. -/
def pdKeys (pd : List (ℕ × List (ℚ × ℕ))) : List ℕ := pd.map (·.1)

/-- The two coupling inequalities implied by the node-leaf constraints of
one occurrence (the root equalities imply them). -/
def occIneqs (pv : ℚ) (l : ℕ → ℚ) (o : Occ) : Prop :=
  (o.left.map l).sum ≤ pv ∧ (o.right.map l).sum + pv ≤ 1

/-- Index in `node_list` of the entry carrying a pair. -/
def entryIdx (nl : List NodeW) (pr : ℕ × ℚ) : ℕ :=
  nl.findIdx (fun nw => decide (nw.pair = pr))

/-- Global leaf offset of the `i`-th tree of an ensemble. -/
def offsetOf (trees : List JTree) (i : ℕ) : ℕ :=
  ((trees.take i).map JTree.numLeaves).sum

/-- Total number of leaves of an ensemble. -/
def totalLeaves (trees : List JTree) : ℕ := (trees.map JTree.numLeaves).sum

/-! ## Compiler invariant lemmas -/

theorem pairsOf_append (nl nl2 : List NodeW) :
    pairsOf (nl ++ nl2) = pairsOf nl ++ pairsOf nl2 := by
  simp [pairsOf]

theorem mem_pairsOf {nl : List NodeW} {pr : ℕ × ℚ} :
    pr ∈ pairsOf nl ↔ ∃ nw ∈ nl, nw.pair = pr := by
  simp [pairsOf]

theorem entryOccs_eq_nil_of_not_mem {nl : List NodeW} {pr : ℕ × ℚ}
    (h : pr ∉ pairsOf nl) : entryOccs nl pr = [] := by
  unfold entryOccs
  rcases hf : List.find? (fun nw => decide (nw.pair = pr)) nl with _ | nw
  · rw [hf]
  · exfalso
    have hp := List.find?_some hf
    simp only [decide_eq_true_eq] at hp
    exact h (mem_pairsOf.mpr ⟨nw, List.mem_of_find?_eq_some hf, hp⟩)

theorem entryOccs_append (nl nl2 : List NodeW) (pr : ℕ × ℚ) :
    entryOccs (nl ++ nl2) pr =
      if pr ∈ pairsOf nl then entryOccs nl pr else entryOccs nl2 pr := by
  unfold entryOccs
  rw [List.find?_append]
  rcases hf : List.find? (fun nw => decide (nw.pair = pr)) nl with _ | nw
  · rw [hf, Option.none_or, if_neg]
    intro hmem
    obtain ⟨nw, hnw, hpair⟩ := mem_pairsOf.mp hmem
    rw [List.find?_eq_none] at hf
    exact hf nw hnw (decide_eq_true hpair)
  · have hp := List.find?_some hf
    simp only [decide_eq_true_eq] at hp
    rw [hf, if_pos (mem_pairsOf.mpr ⟨nw, List.mem_of_find?_eq_some hf, hp⟩)]
    rfl

theorem entryOccs_set {nl : List NodeW} {idx : ℕ} {nw : NodeW} {o : Occ}
    (hnodup : (pairsOf nl).Nodup) (hget : nl.get? idx = some nw) (pr : ℕ × ℚ) :
    entryOccs (nl.set idx { nw with leaves_lists := nw.leaves_lists ++ [o] }) pr =
      if pr = nw.pair then entryOccs nl pr ++ [o] else entryOccs nl pr := by
  induction nl generalizing idx with
  | nil => simp at hget
  | cons hd tl ih =>
      have hhd : hd.pair ∉ pairsOf tl := by
        have h1 := (List.nodup_cons.mp hnodup).1
        simpa [pairsOf] using h1
      have htl : (pairsOf tl).Nodup := (List.nodup_cons.mp hnodup).2
      rcases idx with _ | n
      · have he : hd = nw := by simpa using hget
        subst he
        simp only [List.set]
        by_cases hpr : pr = hd.pair
        · rw [if_pos hpr]
          unfold entryOccs
          rw [List.find?_cons_of_pos _ (by simp only [decide_eq_true_eq]; exact hpr.symm),
            List.find?_cons_of_pos _ (by simp only [decide_eq_true_eq]; exact hpr.symm)]
        · rw [if_neg hpr]
          unfold entryOccs
          rw [List.find?_cons_of_neg _
              (by simp only [decide_eq_true_eq]; exact fun h => hpr h.symm),
            List.find?_cons_of_neg _
              (by simp only [decide_eq_true_eq]; exact fun h => hpr h.symm)]
      · have hget' : tl.get? n = some nw := by simpa using hget
        have hnwtl : nw ∈ tl := List.get?_mem hget'
        simp only [List.set]
        by_cases hm : hd.pair = pr
        · have hprnw : pr ≠ nw.pair := by
            intro he
            exact hhd (by rw [hm, he]; exact mem_pairsOf.mpr ⟨nw, hnwtl, rfl⟩)
          rw [if_neg hprnw]
          unfold entryOccs
          rw [List.find?_cons_of_pos _ (by simp only [decide_eq_true_eq]; exact hm),
            List.find?_cons_of_pos _ (by simp only [decide_eq_true_eq]; exact hm)]
        · unfold entryOccs
          rw [List.find?_cons_of_neg _ (by simp only [decide_eq_true_eq]; exact hm),
            List.find?_cons_of_neg _ (by simp only [decide_eq_true_eq]; exact hm)]
          have hrec := ih htl hget'
          unfold entryOccs at hrec
          exact hrec

theorem leafVals_length (neg : Bool) (t : JTree) :
    (t.leafVals neg).length = t.numLeaves := by
  induction t with
  | leaf v => rfl
  | node a th yes no ihy ihn => simp [JTree.leafVals, JTree.numLeaves, ihy, ihn]

theorem pairsOf_set_same {nl : List NodeW} {idx : ℕ} {nw : NodeW} {o : Occ}
    (hget : nl.get? idx = some nw) :
    pairsOf (nl.set idx { nw with leaves_lists := nw.leaves_lists ++ [o] }) = pairsOf nl := by
  unfold pairsOf
  rw [List.map_set]
  have hlt : idx < nl.length := by
    rcases List.get?_eq_some.mp hget with ⟨h, -⟩
    exact h
  apply List.ext_get
  · simp
  intro n h1 h2
  rcases eq_or_ne idx n with h | h
  · subst h
    rw [List.get_eq_getElem, List.getElem_set, if_pos rfl]
    have : nl[idx] = nw := by
      have := List.get?_eq_get hlt
      rw [hget] at this
      injection this with h3
      rw [List.get_eq_getElem] at h3
      exact h3.symm
    rw [List.get_eq_getElem, List.getElem_map, this]
    rfl
  · rw [List.get_eq_getElem, List.get_eq_getElem, List.getElem_set, if_neg h]

theorem ncOf_append_singleton (nl : List NodeW) (x : NodeW) :
    ncOf (nl ++ [x]) = ncOf nl ++ [(x.pair, nl.length)] := by
  unfold ncOf
  rw [pairsOf_append, List.enum_append]
  have hlen : (pairsOf nl).length = nl.length := by simp [pairsOf]
  simp [pairsOf, List.enumFrom, hlen]

theorem lookupNC_enumFrom_none (prs : List (ℕ × ℚ)) (pr : ℕ × ℚ) :
    ∀ k, lookupNC ((prs.enumFrom k).map (fun ip => (ip.2, ip.1))) pr = none ↔ pr ∉ prs := by
  induction prs with
  | nil => intro k; simp [lookupNC]
  | cons q qs ih =>
      intro k
      rw [List.enumFrom_cons, List.map_cons]
      by_cases hq : q = pr
      · subst hq
        unfold lookupNC
        rw [List.find?_cons_of_pos _ (by simp)]
        simp
      · unfold lookupNC
        rw [List.find?_cons_of_neg _ (by simpa using hq)]
        have := ih (k + 1)
        unfold lookupNC at this
        rw [this]
        simp only [List.mem_cons, not_or]
        constructor
        · intro h
          exact ⟨fun he => hq he.symm, h⟩
        · intro h
          exact h.2

theorem lookupNC_enumFrom_some (prs : List (ℕ × ℚ)) (pr : ℕ × ℚ) :
    ∀ k i, lookupNC ((prs.enumFrom k).map (fun ip => (ip.2, ip.1))) pr = some i →
      ∃ j, i = k + j ∧ prs.get? j = some pr := by
  induction prs with
  | nil => intro k i h; simp [lookupNC] at h
  | cons q qs ih =>
      intro k i h
      rw [List.enumFrom_cons, List.map_cons] at h
      by_cases hq : q = pr
      · subst hq
        unfold lookupNC at h
        rw [List.find?_cons_of_pos _ (by simp)] at h
        simp at h
        exact ⟨0, by omega, rfl⟩
      · unfold lookupNC at h
        rw [List.find?_cons_of_neg _ (by simpa using hq)] at h
        obtain ⟨j, hj, hget⟩ := ih (k + 1) i h
        exact ⟨j + 1, by omega, by simpa using hget⟩

theorem lookupNC_none_iff {s : CState} (hWF : WFState s) (pr : ℕ × ℚ) :
    lookupNC s.node_check pr = none ↔ pr ∉ pairsOf s.node_list := by
  rw [hWF.1]
  exact lookupNC_enumFrom_none (pairsOf s.node_list) pr 0

theorem lookupNC_some_spec {s : CState} (hWF : WFState s) {pr : ℕ × ℚ} {i : ℕ}
    (h : lookupNC s.node_check pr = some i) :
    ∃ nw, s.node_list.get? i = some nw ∧ nw.pair = pr := by
  rw [hWF.1] at h
  obtain ⟨j, hj, hget⟩ := lookupNC_enumFrom_some (pairsOf s.node_list) pr 0 i h
  have hij : i = j := by omega
  subst hij
  unfold pairsOf at hget
  rw [List.get?_eq_getElem?, List.getElem?_map] at hget
  rw [← List.get?_eq_getElem?] at hget
  rcases hnw : s.node_list.get? i with _ | nw
  · rw [hnw] at hget; simp at hget
  · rw [hnw] at hget
    simp at hget
    exact ⟨nw, rfl, hget⟩

theorem entryOccs_singleton_self (a : ℕ) (th : ℚ) (ll : List Occ) :
    entryOccs [⟨a, th, ll⟩] (a, th) = ll := by
  unfold entryOccs
  rw [List.find?_cons_of_pos _ (by simp [NodeW.pair])]

theorem entryOccs_singleton_ne (a : ℕ) (th : ℚ) (ll : List Occ) (pr : ℕ × ℚ)
    (h : pr ≠ (a, th)) : entryOccs [⟨a, th, ll⟩] pr = [] := by
  unfold entryOccs
  rw [List.find?_cons_of_neg _ (by simp [NodeW.pair]; exact fun hh => h hh.symm)]
  rfl

theorem dfs_spec (d : ℕ) (neg : Bool) (t : JTree) :
    ∀ (root : Bool) (s : CState), WFState s →
      WFState (dfs d neg t root s).1 ∧
      (dfs d neg t root s).1.leaf_v_list = s.leaf_v_list ++ t.leafVals neg ∧
      (dfs d neg t root s).2 = List.range' s.leaf_v_list.length t.numLeaves ∧
      (∀ pr, entryOccs (dfs d neg t root s).1.node_list pr =
        entryOccs s.node_list pr ++
          ((occsOf d s.leaf_v_list.length root t).filter
            (fun e => decide (e.1 = pr))).map (·.2)) ∧
      (∀ pr, pr ∈ pairsOf (dfs d neg t root s).1.node_list ↔
        pr ∈ pairsOf s.node_list ∨
          pr ∈ (occsOf d s.leaf_v_list.length root t).map (·.1)) := by
  induction t with
  | leaf v =>
      intro root s hWF
      refine ⟨hWF, rfl, by simp [dfs, List.range', JTree.numLeaves], ?_, ?_⟩
      · intro pr
        simp [dfs, occsOf]
      · intro pr
        simp [dfs, occsOf]
  | node a th yes no ihy ihn =>
      intro root s hWF
      obtain ⟨hWFa, hlva, hidxa, hocca, hmema⟩ := ihy false s hWF
      obtain ⟨hWFb, hlvb, hidxb, hoccb, hmemb⟩ :=
        ihn false (dfs d neg yes false s).1 hWFa
      have hlen1 : (dfs d neg yes false s).1.leaf_v_list.length =
          s.leaf_v_list.length + yes.numLeaves := by
        rw [hlva, List.length_append, leafVals_length]
      have hlvb' : (dfs d neg no false (dfs d neg yes false s).1).1.leaf_v_list =
          s.leaf_v_list ++ (JTree.node a th yes no).leafVals neg := by
        rw [hlvb, hlva, JTree.leafVals, List.append_assoc]
      have hidxb' : (dfs d neg no false (dfs d neg yes false s).1).2 =
          List.range' (s.leaf_v_list.length + yes.numLeaves) no.numLeaves := by
        rw [hidxb, hlen1]
      have hoccb' : ∀ pr, entryOccs
            (dfs d neg no false (dfs d neg yes false s).1).1.node_list pr =
          entryOccs s.node_list pr ++
            ((occsOf d s.leaf_v_list.length false yes).filter
              (fun e => decide (e.1 = pr))).map (·.2) ++
            ((occsOf d (s.leaf_v_list.length + yes.numLeaves) false no).filter
              (fun e => decide (e.1 = pr))).map (·.2) := by
        intro pr
        rw [hoccb pr, hocca pr, hlen1]
      have hmemb' : ∀ pr,
          pr ∈ pairsOf (dfs d neg no false (dfs d neg yes false s).1).1.node_list ↔
            pr ∈ pairsOf s.node_list ∨
              pr ∈ (occsOf d s.leaf_v_list.length false yes).map (·.1) ∨
              pr ∈ (occsOf d (s.leaf_v_list.length + yes.numLeaves) false no).map (·.1) := by
        intro pr
        rw [hmemb pr, hmema pr, hlen1, or_assoc]
      have hidxcat : (dfs d neg yes false s).2 ++
            (dfs d neg no false (dfs d neg yes false s).1).2 =
          List.range' s.leaf_v_list.length (JTree.node a th yes no).numLeaves := by
        rw [hidxa, hidxb']
        have := List.range'_append s.leaf_v_list.length yes.numLeaves no.numLeaves 1
        simp only [one_mul] at this
        rw [this]
        simp [JTree.numLeaves, Nat.add_comm]
      rcases hl : lookupNC (dfs d neg no false (dfs d neg yes false s).1).1.node_check
          (a, pyRound d th) with _ | idx
      · -- new unique split appended
        have hres : dfs d neg (JTree.node a th yes no) root s =
            ({ (dfs d neg no false (dfs d neg yes false s).1).1 with
                node_list :=
                  (dfs d neg no false (dfs d neg yes false s).1).1.node_list ++
                    [⟨a, pyRound d th, [⟨(dfs d neg yes false s).2,
                      (dfs d neg no false (dfs d neg yes false s).1).2, root⟩]⟩],
                node_check :=
                  (dfs d neg no false (dfs d neg yes false s).1).1.node_check ++
                    [((a, pyRound d th),
                      (dfs d neg no false (dfs d neg yes false s).1).1.node_list.length)] },
             (dfs d neg yes false s).2 ++
               (dfs d neg no false (dfs d neg yes false s).1).2) := by
          simp only [dfs]
          rw [hl]
        have hnotmem : (a, pyRound d th) ∉
            pairsOf (dfs d neg no false (dfs d neg yes false s).1).1.node_list :=
          (lookupNC_none_iff hWFb _).mp hl
        rw [hres]
        refine ⟨⟨?_, ?_⟩, hlvb', hidxcat, ?_, ?_⟩
        · show _ ++ _ = ncOf (_ ++ [_])
          rw [ncOf_append_singleton, hWFb.1]
          rfl
        · rw [pairsOf_append]
          refine List.Nodup.append hWFb.2 (by simp [pairsOf]) ?_
          intro pr hpr hpr2
          simp only [pairsOf, List.map_cons, List.map_nil, List.mem_singleton] at hpr2
          rw [hpr2] at hpr
          exact hnotmem hpr
        · intro pr
          rw [entryOccs_append]
          have hfiltmap : ((occsOf d s.leaf_v_list.length root
                (JTree.node a th yes no)).filter (fun e => decide (e.1 = pr))).map
                  (fun e => e.2) =
              ((occsOf d s.leaf_v_list.length false yes).filter
                (fun e => decide (e.1 = pr))).map (fun e => e.2) ++
              ((occsOf d (s.leaf_v_list.length + yes.numLeaves) false no).filter
                (fun e => decide (e.1 = pr))).map (fun e => e.2) ++
              (if pr = (a, pyRound d th) then
                [(⟨(dfs d neg yes false s).2,
                   (dfs d neg no false (dfs d neg yes false s).1).2, root⟩ : Occ)]
               else []) := by
            rw [occsOf]
            rw [List.filter_append, List.filter_append, List.map_append, List.map_append]
            congr 1
            by_cases hpr : pr = (a, pyRound d th)
            · rw [if_pos hpr, hpr]
              simp [hidxa, hidxb']
            · rw [if_neg hpr]
              have : decide (((a, pyRound d th),
                  (⟨List.range' s.leaf_v_list.length yes.numLeaves,
                    List.range' (s.leaf_v_list.length + yes.numLeaves) no.numLeaves,
                    root⟩ : Occ)).1 = pr) = false := by
                simp only [decide_eq_false_iff_not]
                exact fun hh => hpr hh.symm
              simp [this]
          rw [hfiltmap]
          by_cases hmem : pr ∈ pairsOf (dfs d neg no false (dfs d neg yes false s).1).1.node_list
          · rw [if_pos hmem]
            have hprne : pr ≠ (a, pyRound d th) := by
              intro he
              rw [he] at hmem
              exact hnotmem hmem
            rw [if_neg hprne, List.append_nil, hoccb' pr, List.append_assoc]
          · rw [if_neg hmem]
            have hS2nil : entryOccs
                (dfs d neg no false (dfs d neg yes false s).1).1.node_list pr = [] :=
              entryOccs_eq_nil_of_not_mem hmem
            rw [hoccb' pr] at hS2nil
            rcases List.append_eq_nil.mp hS2nil with ⟨h12, h3⟩
            rcases List.append_eq_nil.mp h12 with ⟨h1, h2⟩
            rw [h1, h2, h3]
            by_cases hpr : pr = (a, pyRound d th)
            · rw [if_pos hpr, hpr, entryOccs_singleton_self]
              simp
            · rw [if_neg hpr, entryOccs_singleton_ne _ _ _ _ hpr]
              simp
        · intro pr
          rw [pairsOf_append]
          have : pairsOf [(⟨a, pyRound d th,
              [⟨(dfs d neg yes false s).2,
                (dfs d neg no false (dfs d neg yes false s).1).2, root⟩]⟩ : NodeW)] =
              [(a, pyRound d th)] := rfl
          rw [this]
          rw [List.mem_append, hmemb' pr]
          rw [occsOf]
          simp only [List.map_append, List.mem_append, List.mem_singleton]
          constructor
          · rintro ((h | h | h) | h)
            · exact Or.inl h
            · exact Or.inr (Or.inl (Or.inl h))
            · exact Or.inr (Or.inl (Or.inr h))
            · exact Or.inr (Or.inr (by simpa using h))
          · rintro (h | ((h | h) | h))
            · exact Or.inl (Or.inl h)
            · exact Or.inl (Or.inr (Or.inl h))
            · exact Or.inl (Or.inr (Or.inr h))
            · exact Or.inr (by simpa using h)
      · -- existing unique split: append occurrence
        obtain ⟨nw, hget, hpair⟩ := lookupNC_some_spec hWFb hl
        have hres : dfs d neg (JTree.node a th yes no) root s =
            ({ (dfs d neg no false (dfs d neg yes false s).1).1 with
                node_list := addOccAt
                  (dfs d neg no false (dfs d neg yes false s).1).1.node_list idx
                  ⟨(dfs d neg yes false s).2,
                    (dfs d neg no false (dfs d neg yes false s).1).2, root⟩ },
             (dfs d neg yes false s).2 ++
               (dfs d neg no false (dfs d neg yes false s).1).2) := by
          simp only [dfs]
          rw [hl]
        have haddocc : addOccAt
            (dfs d neg no false (dfs d neg yes false s).1).1.node_list idx
            (⟨(dfs d neg yes false s).2,
              (dfs d neg no false (dfs d neg yes false s).1).2, root⟩ : Occ) =
            (dfs d neg no false (dfs d neg yes false s).1).1.node_list.set idx
              { nw with leaves_lists := nw.leaves_lists ++
                [⟨(dfs d neg yes false s).2,
                  (dfs d neg no false (dfs d neg yes false s).1).2, root⟩] } := by
          unfold addOccAt
          rw [hget]
        have hmempr : (a, pyRound d th) ∈
            pairsOf (dfs d neg no false (dfs d neg yes false s).1).1.node_list := by
          rw [← hpair]
          exact mem_pairsOf.mpr ⟨nw, List.get?_mem hget, rfl⟩
        rw [hres, haddocc]
        refine ⟨⟨?_, ?_⟩, hlvb', hidxcat, ?_, ?_⟩
        · show _ = ncOf (List.set _ _ _)
          unfold ncOf
          rw [pairsOf_set_same hget, hWFb.1]
          rfl
        · rw [pairsOf_set_same hget]
          exact hWFb.2
        · intro pr
          rw [entryOccs_set hWFb.2 hget pr]
          have hfiltmap : ((occsOf d s.leaf_v_list.length root
                (JTree.node a th yes no)).filter (fun e => decide (e.1 = pr))).map
                  (fun e => e.2) =
              ((occsOf d s.leaf_v_list.length false yes).filter
                (fun e => decide (e.1 = pr))).map (fun e => e.2) ++
              ((occsOf d (s.leaf_v_list.length + yes.numLeaves) false no).filter
                (fun e => decide (e.1 = pr))).map (fun e => e.2) ++
              (if pr = (a, pyRound d th) then
                [(⟨(dfs d neg yes false s).2,
                   (dfs d neg no false (dfs d neg yes false s).1).2, root⟩ : Occ)]
               else []) := by
            rw [occsOf]
            rw [List.filter_append, List.filter_append, List.map_append, List.map_append]
            congr 1
            by_cases hpr : pr = (a, pyRound d th)
            · rw [if_pos hpr, hpr]
              simp [hidxa, hidxb']
            · rw [if_neg hpr]
              have : decide (((a, pyRound d th),
                  (⟨List.range' s.leaf_v_list.length yes.numLeaves,
                    List.range' (s.leaf_v_list.length + yes.numLeaves) no.numLeaves,
                    root⟩ : Occ)).1 = pr) = false := by
                simp only [decide_eq_false_iff_not]
                exact fun hh => hpr hh.symm
              simp [this]
          rw [hfiltmap]
          by_cases hpr : pr = (a, pyRound d th)
          · rw [if_pos (by rw [hpair]; exact hpr), if_pos hpr, hoccb' pr]
            simp [List.append_assoc]
          · rw [if_neg (by rw [hpair]; exact hpr), if_neg hpr, List.append_nil,
              hoccb' pr, List.append_assoc]
        · intro pr
          rw [pairsOf_set_same hget, hmemb' pr, occsOf]
          simp only [List.map_append, List.mem_append, List.mem_singleton]
          constructor
          · rintro (h | h | h)
            · exact Or.inl h
            · exact Or.inr (Or.inl (Or.inl h))
            · exact Or.inr (Or.inl (Or.inr h))
          · rintro (h | ((h | h) | h))
            · exact Or.inl h
            · exact Or.inr (Or.inl h)
            · exact Or.inr (Or.inr h)
            · have hppr : pr = (a, pyRound d th) := by simpa using h
              rw [hppr]
              exact (hmemb' _).mp hmempr

theorem offsetOf_cons (t : JTree) (ts : List JTree) (i : ℕ) :
    offsetOf (t :: ts) (i + 1) = t.numLeaves + offsetOf ts i := by
  simp [offsetOf, List.take_cons]

theorem compileLoop_spec (d : ℕ) (ts : List JTree) :
    ∀ acc : CState × List ℕ, WFState acc.1 →
      WFState (ts.foldl (compileStep d) acc).1 ∧
      (ts.foldl (compileStep d) acc).1.leaf_v_list =
        acc.1.leaf_v_list ++ (ts.map (JTree.leafVals false)).flatten ∧
      (ts.foldl (compileStep d) acc).2 =
        acc.2 ++ (List.range ts.length).map
          (fun i => acc.1.leaf_v_list.length + offsetOf ts (i + 1)) ∧
      (∀ pr, entryOccs (ts.foldl (compileStep d) acc).1.node_list pr =
        entryOccs acc.1.node_list pr ++
          ((allOccsAux d acc.1.leaf_v_list.length ts).filter
            (fun e => decide (e.1 = pr))).map (·.2)) ∧
      (∀ pr, pr ∈ pairsOf (ts.foldl (compileStep d) acc).1.node_list ↔
        pr ∈ pairsOf acc.1.node_list ∨
          pr ∈ (allOccsAux d acc.1.leaf_v_list.length ts).map (·.1)) := by
  induction ts with
  | nil =>
      intro acc hWF
      refine ⟨hWF, by simp, by simp, ?_, ?_⟩
      · intro pr
        simp [allOccsAux]
      · intro pr
        simp [allOccsAux]
  | cons t ts ih =>
      intro acc hWF
      obtain ⟨hWFt, hlvt, hidxt, hocct, hmemt⟩ := dfs_spec d false t true acc.1 hWF
      have hlent : (dfs d false t true acc.1).1.leaf_v_list.length =
          acc.1.leaf_v_list.length + t.numLeaves := by
        rw [hlvt, List.length_append, leafVals_length]
      have hstep : (t :: ts).foldl (compileStep d) acc =
          ts.foldl (compileStep d)
            ((dfs d false t true acc.1).1, acc.2 ++ [(dfs d false t true acc.1).1.leaf_v_list.length]) := by
        rw [List.foldl_cons]
        rfl
      obtain ⟨hWF2, hlv2, hidx2, hocc2, hmem2⟩ :=
        ih ((dfs d false t true acc.1).1,
          acc.2 ++ [(dfs d false t true acc.1).1.leaf_v_list.length]) hWFt
      rw [hstep]
      refine ⟨hWF2, ?_, ?_, ?_, ?_⟩
      · rw [hlv2]
        simp only [hlvt]
        rw [List.map_cons, List.flatten_cons, List.append_assoc]
      · rw [hidx2]
        simp only [hlent, List.length_cons]
        rw [List.range_succ_eq_map, List.map_cons, List.map_map, List.append_assoc,
          List.singleton_append]
        have hhead : acc.1.leaf_v_list.length + offsetOf (t :: ts) (0 + 1) =
            acc.1.leaf_v_list.length + t.numLeaves := by
          rw [offsetOf_cons]
          simp [offsetOf]
        rw [hhead]
        congr 1
        congr 1
        apply List.map_congr_left
        intro i hi
        simp only [Function.comp_apply, Nat.succ_eq_add_one]
        rw [offsetOf_cons]
        omega
      · intro pr
        rw [hocc2 pr, hocct pr]
        simp only [hlent]
        rw [allOccsAux, List.filter_append, List.map_append, List.append_assoc]
      · intro pr
        rw [hmem2 pr, hmemt pr]
        simp only [hlent]
        rw [allOccsAux]
        simp only [List.map_append, List.mem_append]
        tauto

theorem compileBinary_spec (d : ℕ) (trees : List JTree) :
    WFState (compileBinary d trees).1 ∧
    (compileBinary d trees).1.leaf_v_list = (trees.map (JTree.leafVals false)).flatten ∧
    (compileBinary d trees).2 =
      (List.range (trees.length + 1)).map (offsetOf trees) ∧
    (∀ pr, entryOccs (compileBinary d trees).1.node_list pr =
      ((allOccs d trees).filter (fun e => decide (e.1 = pr))).map (·.2)) ∧
    (∀ pr, pr ∈ pairsOf (compileBinary d trees).1.node_list ↔
      pr ∈ (allOccs d trees).map (·.1)) := by
  have hWF0 : WFState CState.empty := ⟨rfl, List.nodup_nil⟩
  obtain ⟨hWF, hlv, hidx, hocc, hmem⟩ :=
    compileLoop_spec d trees (CState.empty, [0]) hWF0
  refine ⟨hWF, by simpa [compileBinary, CState.empty] using hlv, ?_, ?_, ?_⟩
  · show (trees.foldl (compileStep d) (CState.empty, [0])).2 = _
    rw [hidx]
    have hzero : (CState.empty, ([0] : List ℕ)).1.leaf_v_list.length = 0 := rfl
    simp only [hzero, Nat.zero_add]
    rw [List.range_succ_eq_map, List.map_cons, List.map_map, List.singleton_append]
    have h0 : offsetOf trees 0 = 0 := by simp [offsetOf]
    rw [h0]
    congr 1
  · intro pr
    have hemp : entryOccs (CState.empty).node_list pr = [] := rfl
    have h2 := hocc pr
    rw [show (CState.empty, ([0] : List ℕ)).1 = CState.empty from rfl, hemp,
      List.nil_append] at h2
    exact h2
  · intro pr
    have h2 := hmem pr
    have hne : pr ∉ pairsOf (CState.empty).node_list := by simp [CState.empty, pairsOf]
    exact ⟨fun h => ((h2.mp h).resolve_left hne), fun h => h2.mpr (Or.inr h)⟩

theorem mem_enumFrom_le {α : Type} (l : List α) :
    ∀ k x, x ∈ l.enumFrom k → k ≤ x.1 := by
  induction l with
  | nil => intro k x h; simp at h
  | cons a as ih =>
      intro k x h
      rw [List.enumFrom_cons] at h
      rcases List.mem_cons.mp h with h | h
      · rw [h]
      · exact Nat.le_of_succ_le (ih (k + 1) x h)

theorem enumFrom_pairwise_lt {α : Type} (l : List α) :
    ∀ k, (l.enumFrom k).Pairwise (fun x y => x.1 < y.1) := by
  induction l with
  | nil => intro k; simp
  | cons a as ih =>
      intro k
      rw [List.enumFrom_cons]
      refine List.Pairwise.cons ?_ (ih (k + 1))
      intro x hx
      exact Nat.lt_of_succ_le (mem_enumFrom_le as (k + 1) x hx)

theorem enum_pairwise_lt {α : Type} (l : List α) :
    l.enum.Pairwise (fun x y => x.1 < y.1) := enumFrom_pairwise_lt l 0

theorem pdLookup_map_update (e : ℕ × NodeW) (a : ℕ) :
    ∀ pd : List (ℕ × List (ℚ × ℕ)),
      pdLookup (pd.map (fun kv =>
        if kv.1 == e.2.attr then (kv.1, kv.2 ++ [(e.2.threshold, e.1)]) else kv)) a =
      if a = e.2.attr ∧ a ∈ pdKeys pd then pdLookup pd a ++ [(e.2.threshold, e.1)]
      else pdLookup pd a := by
  intro pd
  induction pd with
  | nil => simp [pdLookup, pdKeys]
  | cons kv pd ih =>
      rw [List.map_cons]
      by_cases hk : kv.1 = a
      · subst hk
        by_cases he : kv.1 = e.2.attr
        · rw [if_pos (by exact beq_iff_eq.mpr he)]
          unfold pdLookup
          rw [List.find?_cons_of_pos _ (by simp), List.find?_cons_of_pos _ (by simp)]
          rw [if_pos ⟨he, by simp [pdKeys]⟩]
        · rw [if_neg (by simpa using he)]
          unfold pdLookup
          rw [List.find?_cons_of_pos _ (by simp), List.find?_cons_of_pos _ (by simp)]
          rw [if_neg (fun hh => he hh.1)]
      · by_cases he : kv.1 = e.2.attr
        · rw [if_pos (by exact beq_iff_eq.mpr he)]
          unfold pdLookup
          rw [List.find?_cons_of_neg _ (by simpa using hk),
            List.find?_cons_of_neg _ (by simpa using hk)]
          have := ih
          unfold pdLookup at this
          rw [this]
          by_cases hmem : a = e.2.attr ∧ a ∈ pdKeys pd
          · rw [if_pos hmem, if_pos ⟨hmem.1, by simp [pdKeys]; exact Or.inr (by
              simpa [pdKeys] using hmem.2)⟩]
          · rw [if_neg hmem, if_neg]
            intro hh
            rcases hh with ⟨hh1, hh2⟩
            apply hmem
            refine ⟨hh1, ?_⟩
            simp only [pdKeys, List.map_cons, List.mem_cons] at hh2
            rcases hh2 with hh2 | hh2
            · exact absurd hh2.symm hk
            · simpa [pdKeys] using hh2
        · rw [if_neg (by simpa using he)]
          unfold pdLookup
          rw [List.find?_cons_of_neg _ (by simpa using hk),
            List.find?_cons_of_neg _ (by simpa using hk)]
          have := ih
          unfold pdLookup at this
          rw [this]
          by_cases hmem : a = e.2.attr ∧ a ∈ pdKeys pd
          · rw [if_pos hmem, if_pos ⟨hmem.1, by
              simp only [pdKeys, List.map_cons, List.mem_cons]
              exact Or.inr (by simpa [pdKeys] using hmem.2)⟩]
          · rw [if_neg hmem, if_neg]
            intro hh
            apply hmem
            refine ⟨hh.1, ?_⟩
            have hh2 := hh.2
            simp only [pdKeys, List.map_cons, List.mem_cons] at hh2
            rcases hh2 with hh2 | hh2
            · exact absurd hh2 (fun hc => hk hc.symm)
            · simpa [pdKeys] using hh2

theorem pdKeys_mem_iff_any (pd : List (ℕ × List (ℚ × ℕ))) (b : ℕ) :
    pd.any (fun kv => kv.1 == b) = true ↔ b ∈ pdKeys pd := by
  simp only [pdKeys, List.any_eq_true, List.mem_map, beq_iff_eq]

theorem pdLookup_pdStep (pd : List (ℕ × List (ℚ × ℕ))) (e : ℕ × NodeW) (a : ℕ) :
    pdLookup (pdStep pd e) a =
      if a = e.2.attr then pdLookup pd a ++ [(e.2.threshold, e.1)]
      else pdLookup pd a := by
  unfold pdStep
  by_cases hany : pd.any (fun kv => kv.1 == e.2.attr) = true
  · rw [if_pos hany, pdLookup_map_update]
    by_cases ha : a = e.2.attr
    · rw [if_pos ⟨ha, by rw [ha]; exact (pdKeys_mem_iff_any pd e.2.attr).mp hany⟩,
        if_pos ha]
    · rw [if_neg (fun hh => ha hh.1), if_neg ha]
  · rw [if_neg hany]
    by_cases ha : a = e.2.attr
    · rw [if_pos ha]
      have hnone : List.find? (fun kv => kv.1 == a) pd = none := by
        rw [List.find?_eq_none]
        intro kv hkv hc
        apply hany
        rw [List.any_eq_true]
        exact ⟨kv, hkv, by rw [← ha]; exact hc⟩
      unfold pdLookup
      rw [List.find?_append, hnone, Option.none_or]
      rw [List.find?_cons_of_pos _ (by simpa using ha.symm)]
      rfl
    · rw [if_neg ha]
      unfold pdLookup
      rw [List.find?_append]
      rcases hf : List.find? (fun kv => kv.1 == a) pd with _ | kv
      · rw [hf, Option.none_or,
          List.find?_cons_of_neg _ (by simpa using fun hh => ha hh.symm)]
        rfl
      · rw [hf]
        rfl

theorem pdKeys_pdStep (pd : List (ℕ × List (ℚ × ℕ))) (e : ℕ × NodeW) :
    pdKeys (pdStep pd e) =
      if e.2.attr ∈ pdKeys pd then pdKeys pd else pdKeys pd ++ [e.2.attr] := by
  unfold pdStep
  by_cases hany : pd.any (fun kv => kv.1 == e.2.attr) = true
  · rw [if_pos hany, if_pos ((pdKeys_mem_iff_any pd e.2.attr).mp hany)]
    unfold pdKeys
    rw [List.map_map]
    apply List.map_congr_left
    intro kv hkv
    by_cases hk : kv.1 = e.2.attr <;> simp [hk]
  · rw [if_neg hany, if_neg (fun hmem => hany ((pdKeys_mem_iff_any pd e.2.attr).mpr hmem))]
    simp [pdKeys]

theorem pdFold_spec (es : List (ℕ × NodeW)) :
    ∀ pd0 : List (ℕ × List (ℚ × ℕ)), (pdKeys pd0).Nodup →
      (pdKeys (es.foldl pdStep pd0)).Nodup ∧
      (∀ a, pdLookup (es.foldl pdStep pd0) a =
        pdLookup pd0 a ++
          (es.filter (fun e => e.2.attr == a)).map (fun e => (e.2.threshold, e.1))) ∧
      (∀ a, a ∈ pdKeys (es.foldl pdStep pd0) ↔
        a ∈ pdKeys pd0 ∨ a ∈ es.map (fun e => e.2.attr)) := by
  induction es with
  | nil =>
      intro pd0 h0
      refine ⟨h0, fun a => by simp, fun a => by simp⟩
  | cons e es ih =>
      intro pd0 h0
      have hkeys1 : (pdKeys (pdStep pd0 e)).Nodup := by
        rw [pdKeys_pdStep]
        by_cases hmem : e.2.attr ∈ pdKeys pd0
        · rw [if_pos hmem]
          exact h0
        · rw [if_neg hmem]
          exact List.Nodup.append h0 (by simp)
            (by intro x hx hx2; simp at hx2; rw [hx2] at hx; exact hmem hx)
      obtain ⟨hk, hl, hm⟩ := ih (pdStep pd0 e) hkeys1
      rw [List.foldl_cons]
      refine ⟨hk, ?_, ?_⟩
      · intro a
        rw [hl a, pdLookup_pdStep]
        by_cases ha : a = e.2.attr
        · rw [if_pos ha, List.filter_cons_of_pos (by simpa using ha.symm),
            List.map_cons, List.append_assoc, List.singleton_append]
        · rw [if_neg ha, List.filter_cons_of_neg (by simpa using fun hh => ha hh.symm)]
      · intro a
        rw [hm a, pdKeys_pdStep]
        by_cases hmem : e.2.attr ∈ pdKeys pd0
        · rw [if_pos hmem]
          simp only [List.map_cons, List.mem_cons]
          constructor
          · rintro (h | h)
            · exact Or.inl h
            · exact Or.inr (Or.inr h)
          · rintro (h | h | h)
            · exact Or.inl h
            · rw [h]; exact Or.inl hmem
            · exact Or.inr h
        · rw [if_neg hmem]
          simp only [List.map_cons, List.mem_cons, List.mem_append, List.mem_singleton]
          tauto

theorem sortByTh_perm (lst : List (ℚ × ℕ)) : (sortByTh lst).Perm lst :=
  List.perm_insertionSort _ lst

theorem sortByTh_sorted (lst : List (ℚ × ℕ)) :
    (sortByTh lst).Pairwise (fun x y => x.1 ≤ y.1) := by
  haveI : IsTotal (ℚ × ℕ) (fun x y => x.1 ≤ y.1) := ⟨fun a b => le_total a.1 b.1⟩
  haveI : IsTrans (ℚ × ℕ) (fun x y => x.1 ≤ y.1) := ⟨fun a b c => le_trans⟩
  exact List.sorted_insertionSort _ lst

theorem pdictRaw_keys_nodup (nl : List NodeW) : (pdKeys (pdictRaw nl)).Nodup :=
  (pdFold_spec nl.enum [] (by simp [pdKeys])).1

theorem pdictRaw_lookup (nl : List NodeW) (a : ℕ) :
    pdLookup (pdictRaw nl) a =
      ((nl.enum).filter (fun e => e.2.attr == a)).map (fun e => (e.2.threshold, e.1)) := by
  have h := (pdFold_spec nl.enum [] (by simp [pdKeys])).2.1 a
  have h0 : pdLookup [] a = [] := rfl
  rw [h0, List.nil_append] at h
  exact h

theorem pdictRaw_keys_mem (nl : List NodeW) (a : ℕ) :
    a ∈ pdKeys (pdictRaw nl) ↔ a ∈ nl.enum.map (fun e => e.2.attr) := by
  have h := (pdFold_spec nl.enum [] (by simp [pdKeys])).2.2 a
  unfold pdictRaw
  rw [h]
  simp [pdKeys]

theorem pdLookup_of_mem {pd : List (ℕ × List (ℚ × ℕ))} (hnodup : (pdKeys pd).Nodup) :
    ∀ kv ∈ pd, pdLookup pd kv.1 = kv.2 := by
  induction pd with
  | nil => intro kv h; simp at h
  | cons hd tl ih =>
      have hcons : (hd.1 :: pdKeys tl).Nodup := by simpa [pdKeys] using hnodup
      have hhd : hd.1 ∉ pdKeys tl := (List.nodup_cons.mp hcons).1
      have htl : (pdKeys tl).Nodup := (List.nodup_cons.mp hcons).2
      intro kv hkv
      rcases List.mem_cons.mp hkv with h | h
      · subst h
        unfold pdLookup
        rw [List.find?_cons_of_pos _ (by simp)]
      · have hne : hd.1 ≠ kv.1 := by
          intro he
          exact hhd (by rw [he]; exact List.mem_map.mpr ⟨kv, h, rfl⟩)
        unfold pdLookup
        rw [List.find?_cons_of_neg _ (by simpa using hne)]
        have := ih htl kv h
        unfold pdLookup at this
        exact this

theorem sortedPdict_entries (nl : List NodeW) :
    ∀ kv ∈ sortedPdict nl, ∃ kv0 ∈ pdictRaw nl, kv.1 = kv0.1 ∧ kv.2 = sortByTh kv0.2 := by
  intro kv hkv
  unfold sortedPdict at hkv
  obtain ⟨kv0, hkv0, he⟩ := List.mem_map.mp hkv
  exact ⟨kv0, hkv0, by rw [← he], by rw [← he]⟩

theorem pdictRaw_entry_mem_spec (nl : List NodeW) {a : ℕ} {ti : ℚ × ℕ}
    (h : ti ∈ pdLookup (pdictRaw nl) a) :
    ∃ hlt : ti.2 < nl.length,
      (nl.get ⟨ti.2, hlt⟩).attr = a ∧ (nl.get ⟨ti.2, hlt⟩).threshold = ti.1 := by
  rw [pdictRaw_lookup] at h
  obtain ⟨e, he, heq⟩ := List.mem_map.mp h
  obtain ⟨hemem, hattr⟩ := List.mem_filter.mp he
  have hget := List.mem_enum_iff_getElem?.mp hemem
  rw [List.getElem?_eq_some_iff] at hget
  obtain ⟨hlt, hval⟩ := hget
  have hti2 : ti.2 = e.1 := by rw [← heq]
  have hti1 : ti.1 = e.2.threshold := by rw [← heq]
  refine ⟨by rw [hti2]; exact hlt, ?_, ?_⟩
  · have : nl.get ⟨ti.2, by rw [hti2]; exact hlt⟩ = e.2 := by
      rw [List.get_eq_getElem]
      simp only [hti2]
      exact hval
    rw [this]
    simpa using hattr
  · have : nl.get ⟨ti.2, by rw [hti2]; exact hlt⟩ = e.2 := by
      rw [List.get_eq_getElem]
      simp only [hti2]
      exact hval
    rw [this, hti1]

theorem pdictRaw_entry_pairwise (nl : List NodeW) (hnodup : (pairsOf nl).Nodup) (a : ℕ) :
    (pdLookup (pdictRaw nl) a).Pairwise (fun x y => x.1 ≠ y.1) := by
  have hidx : (pdLookup (pdictRaw nl) a).Pairwise (fun x y => x.2 < y.2) := by
    rw [pdictRaw_lookup]
    rw [List.pairwise_map]
    exact (enum_pairwise_lt nl).filter _
  refine hidx.imp_of_mem ?_
  intro x y hx hy hlt
  obtain ⟨hxl, hxa, hxt⟩ := pdictRaw_entry_mem_spec nl hx
  obtain ⟨hyl, hya, hyt⟩ := pdictRaw_entry_mem_spec nl hy
  intro he
  have hpair : (nl.get ⟨x.2, hxl⟩).pair = (nl.get ⟨y.2, hyl⟩).pair := by
    unfold NodeW.pair
    rw [hxa, hxt, hya, hyt, he]
  have hinj := List.nodup_iff_injective_get.mp hnodup
  have : pairsOf nl = nl.map NodeW.pair := rfl
  have hinjp : Function.Injective (pairsOf nl).get :=
    List.nodup_iff_injective_get.mp hnodup
  have hxl' : x.2 < (pairsOf nl).length := by simpa [pairsOf] using hxl
  have hyl' : y.2 < (pairsOf nl).length := by simpa [pairsOf] using hyl
  have hpg : (pairsOf nl).get ⟨x.2, hxl'⟩ = (pairsOf nl).get ⟨y.2, hyl'⟩ := by
    unfold pairsOf
    rw [List.get_eq_getElem, List.get_eq_getElem, List.getElem_map, List.getElem_map]
    rw [List.get_eq_getElem, List.get_eq_getElem] at hpair
    exact hpair
  have := hinjp hpg
  have hxy : x.2 = y.2 := by
    have h2 := congrArg (fun q : Fin (pairsOf nl).length => q.1) this
    simpa using h2
  omega

theorem sortedPdict_spec (nl : List NodeW) (hnodup : (pairsOf nl).Nodup) :
    ∀ kv ∈ sortedPdict nl,
      kv.2.Pairwise (fun x y => x.1 < y.1) ∧
      (∀ ti ∈ kv.2, ∃ hlt : ti.2 < nl.length,
        (nl.get ⟨ti.2, hlt⟩).attr = kv.1 ∧ (nl.get ⟨ti.2, hlt⟩).threshold = ti.1) := by
  intro kv hkv
  obtain ⟨kv0, hkv0, hfst, hsnd⟩ := sortedPdict_entries nl kv hkv
  have hraw : kv0.2 = pdLookup (pdictRaw nl) kv0.1 :=
    (pdLookup_of_mem (pdictRaw_keys_nodup nl) kv0 hkv0).symm
  constructor
  · have hle : kv.2.Pairwise (fun x y => x.1 ≤ y.1) := by
      rw [hsnd]
      exact sortByTh_sorted kv0.2
    have hne : kv.2.Pairwise (fun x y => x.1 ≠ y.1) := by
      rw [hsnd]
      have hperm := sortByTh_perm kv0.2
      rw [List.Perm.pairwise_iff (fun hxy => hxy.symm) hperm]
      rw [hraw]
      exact pdictRaw_entry_pairwise nl hnodup kv0.1
    have hand := List.pairwise_and_iff.mpr ⟨hle, hne⟩
    exact hand.imp (fun hab => lt_of_le_of_ne hab.1 hab.2)
  · intro ti hti
    have hti0 : ti ∈ kv0.2 := by
      have hperm := sortByTh_perm kv0.2
      exact hperm.mem_iff.mp (by rw [← hsnd]; exact hti)
    rw [hraw] at hti0
    obtain ⟨hlt, ha, ht⟩ := pdictRaw_entry_mem_spec nl hti0
    exact ⟨hlt, by rw [ha, hfst], ht⟩

theorem sortedPdict_complete (nl : List NodeW) (i : ℕ) (hi : i < nl.length) :
    ∃ kv ∈ sortedPdict nl, kv.1 = (nl.get ⟨i, hi⟩).attr ∧
      ((nl.get ⟨i, hi⟩).threshold, i) ∈ kv.2 := by
  have hmemenum : ((i, nl.get ⟨i, hi⟩) : ℕ × NodeW) ∈ nl.enum := by
    rw [List.mem_enum_iff_getElem?]
    simp [List.getElem?_eq_some_iff, hi]
  have hkey : (nl.get ⟨i, hi⟩).attr ∈ pdKeys (pdictRaw nl) := by
    rw [pdictRaw_keys_mem]
    exact List.mem_map.mpr ⟨(i, nl.get ⟨i, hi⟩), hmemenum, rfl⟩
  obtain ⟨kv0, hkv0, hfst⟩ := List.mem_map.mp hkey
  have hraw : kv0.2 = pdLookup (pdictRaw nl) kv0.1 :=
    (pdLookup_of_mem (pdictRaw_keys_nodup nl) kv0 hkv0).symm
  have hmem2 : ((nl.get ⟨i, hi⟩).threshold, i) ∈ kv0.2 := by
    rw [hraw, hfst, pdictRaw_lookup]
    refine List.mem_map.mpr ⟨(i, nl.get ⟨i, hi⟩), ?_, rfl⟩
    rw [List.mem_filter]
    exact ⟨hmemenum, by simp⟩
  refine ⟨(kv0.1, sortByTh kv0.2), ?_, hfst, ?_⟩
  · unfold sortedPdict
    exact List.mem_map.mpr ⟨kv0, hkv0, rfl⟩
  · exact (sortByTh_perm kv0.2).mem_iff.mpr hmem2

theorem foldl_min_le_init : ∀ (l : List ℚ) (a : ℚ), l.foldl min a ≤ a := by
  intro l
  induction l with
  | nil => intro a; exact le_refl a
  | cons x xs ih =>
      intro a
      rw [List.foldl_cons]
      exact (ih (min a x)).trans (min_le_left a x)

theorem foldl_min_le_mem : ∀ (l : List ℚ) (a x : ℚ), x ∈ l → l.foldl min a ≤ x := by
  intro l
  induction l with
  | nil => intro a x h; simp at h
  | cons y ys ih =>
      intro a x h
      rw [List.foldl_cons]
      rcases List.mem_cons.mp h with h | h
      · rw [h]
        exact (foldl_min_le_init ys (min a y)).trans (min_le_right a y)
      · exact ih (min a y) x h

theorem foldl_min_pos : ∀ (l : List ℚ) (a : ℚ), 0 < a → (∀ x ∈ l, 0 < x) →
    0 < l.foldl min a := by
  intro l
  induction l with
  | nil => intro a ha _; exact ha
  | cons y ys ih =>
      intro a ha hl
      rw [List.foldl_cons]
      exact ih (min a y) (lt_min ha (hl y (List.mem_cons_self y ys)))
        (fun x hx => hl x (List.mem_cons_of_mem y hx))

theorem foldl_min_init_comm : ∀ (l : List ℚ) (a b : ℚ),
    l.foldl min (min a b) = min a (l.foldl min b) := by
  intro l
  induction l with
  | nil => intro a b; rfl
  | cons y ys ih =>
      intro a b
      rw [List.foldl_cons, List.foldl_cons, min_assoc, ih]

theorem consecPairs_rel {α : Type} {R : α → α → Prop} :
    ∀ l : List α, l.Chain' R → ∀ ab ∈ consecPairs l, R ab.1 ab.2 := by
  intro l
  induction l with
  | nil => intro _ ab h; simp [consecPairs] at h
  | cons x xs ih =>
      intro hch ab hab
      cases xs with
      | nil => simp [consecPairs] at hab
      | cons y ys =>
          have hxy : R x y := (List.chain'_cons.mp hch).1
          have htail : (y :: ys).Chain' R := (List.chain'_cons.mp hch).2
          have hdecomp : consecPairs (x :: y :: ys) = (x, y) :: consecPairs (y :: ys) := rfl
          rw [hdecomp] at hab
          rcases List.mem_cons.mp hab with h | h
          · rw [h]
            exact hxy
          · exact ih htail ab h

/-- The consecutive threshold gaps of a strictly sorted split list are
positive. -/
theorem diffs_pos {lst : List (ℚ × ℕ)} (hs : lst.Pairwise (fun x y => x.1 < y.1)) :
    ∀ q ∈ (consecPairs lst).map (fun ab => ab.2.1 - ab.1.1), 0 < q := by
  intro q hq
  obtain ⟨ab, hab, he⟩ := List.mem_map.mp hq
  haveI : IsTrans (ℚ × ℕ) (fun x y => x.1 < y.1) := ⟨fun a b c => lt_trans⟩
  have hch : lst.Chain' (fun x y => x.1 < y.1) := List.chain'_iff_pairwise.mpr hs
  have := consecPairs_rel lst hch ab hab
  rw [← he]
  linarith

theorem guardStep_le (g : ℚ) (hg : 0 ≤ g) (kv : ℕ × List (ℚ × ℕ)) :
    guardStep g kv ≤ g := by
  simp only [guardStep]
  split_ifs with h1 h2
  · linarith
  · exact le_refl g
  · exact le_refl g

theorem guardStep_pos (g : ℚ) (hg : 0 < g) (kv : ℕ × List (ℚ × ℕ))
    (hs : kv.2.Pairwise (fun x y => x.1 < y.1)) : 0 < guardStep g kv := by
  simp only [guardStep]
  split_ifs with h1 h2
  · have hmd : 0 < minDiffOf kv.2 :=
      foldl_min_pos _ 1000 (by norm_num) (diffs_pos hs)
    linarith
  · exact hg
  · exact hg

theorem guardStep_twice_le (g : ℚ) (hg : 0 < g) (kv : ℕ × List (ℚ × ℕ))
    (hs : kv.2.Pairwise (fun x y => x.1 < y.1)) (hlen : 2 ≤ kv.2.length) :
    2 * guardStep g kv ≤ minDiffOf kv.2 := by
  have hmd : 0 < minDiffOf kv.2 :=
    foldl_min_pos _ 1000 (by norm_num) (diffs_pos hs)
  simp only [guardStep]
  rw [if_pos (by omega : 1 < kv.2.length)]
  split_ifs with h2
  · linarith
  · linarith

theorem guardFold_spec (pd : List (ℕ × List (ℚ × ℕ)))
    (hs : ∀ kv ∈ pd, kv.2.Pairwise (fun x y => x.1 < y.1)) :
    ∀ g, 0 < g →
      0 < guardFold g pd ∧ guardFold g pd ≤ g ∧
      ∀ kv ∈ pd, 2 ≤ kv.2.length → 2 * guardFold g pd ≤ minDiffOf kv.2 := by
  induction pd with
  | nil => intro g hg; exact ⟨hg, le_refl g, by simp⟩
  | cons kv pd ih =>
      intro g hg
      have hkv := hs kv (List.mem_cons_self kv pd)
      have hg1 : 0 < guardStep g kv := guardStep_pos g hg kv hkv
      obtain ⟨hpos, hle, hprop⟩ :=
        ih (fun kv' h => hs kv' (List.mem_cons_of_mem kv h)) (guardStep g kv) hg1
      have hfold : guardFold g (kv :: pd) = guardFold (guardStep g kv) pd := rfl
      refine ⟨by rw [hfold]; exact hpos,
        by rw [hfold]; exact hle.trans (guardStep_le g hg.le kv), ?_⟩
      intro kv' hkv' hlen
      rcases List.mem_cons.mp hkv' with h | h
      · subst h
        rw [hfold]
        have h2 : 2 * guardStep g kv' ≤ minDiffOf kv'.2 :=
          guardStep_twice_le g hg kv' hkv hlen
        linarith
      · rw [hfold]
        exact hprop kv' h hlen

theorem guardFold_take_mono (pd : List (ℕ × List (ℚ × ℕ)))
    (hs : ∀ kv ∈ pd, kv.2.Pairwise (fun x y => x.1 < y.1))
    (g0 : ℚ) (h0 : 0 < g0) (n : ℕ) :
    guardFold g0 (pd.take (n + 1)) ≤ guardFold g0 (pd.take n) := by
  by_cases h : n < pd.length
  · have htake : pd.take (n + 1) = pd.take n ++ [pd.get ⟨n, h⟩] := by
      rw [List.take_succ]
      congr 1
      rw [List.getElem?_eq_getElem h]
      simp
    rw [htake]
    unfold guardFold
    rw [List.foldl_append]
    have hpos : 0 < (pd.take n).foldl guardStep g0 :=
      (guardFold_spec (pd.take n)
        (fun kv hkv => hs kv (List.mem_of_mem_take hkv)) g0 h0).1
    rw [List.foldl_cons, List.foldl_nil]
    exact guardStep_le _ hpos.le _
  · rw [List.take_of_length_le (by omega), List.take_of_length_le (by omega)]

theorem minDiffOf_le_minGapOf (lst : List (ℚ × ℕ)) (h : 2 ≤ lst.length) :
    minDiffOf lst ≤ minGapOf lst := by
  unfold minDiffOf minGapOf
  rcases hd : (consecPairs lst).map (fun ab => ab.2.1 - ab.1.1) with _ | ⟨q, qs⟩
  · exfalso
    have : consecPairs lst ≠ [] := by
      unfold consecPairs
      intro hz
      have hlen := congrArg List.length hz
      rw [List.length_zip, List.length_drop] at hlen
      simp at hlen
      omega
    exact this (by simpa using hd)
  · rw [hd, List.foldl_cons]
    show qs.foldl min (min 1000 q) ≤ qs.foldl min q
    calc qs.foldl min (min 1000 q) = min 1000 (qs.foldl min q) := foldl_min_init_comm qs 1000 q
    _ ≤ qs.foldl min q := min_le_right _ _

theorem minDiffOf_eq_min (lst : List (ℚ × ℕ)) (h : 2 ≤ lst.length) :
    minDiffOf lst = min 1000 (minGapOf lst) := by
  unfold minDiffOf minGapOf
  rcases hd : (consecPairs lst).map (fun ab => ab.2.1 - ab.1.1) with _ | ⟨q, qs⟩
  · exfalso
    have : consecPairs lst ≠ [] := by
      unfold consecPairs
      intro hz
      have hlen := congrArg List.length hz
      rw [List.length_zip, List.length_drop] at hlen
      simp at hlen
      omega
    exact this (by simpa using hd)
  · rw [hd, List.foldl_cons]
    show qs.foldl min (min 1000 q) = min 1000 (qs.foldl min q)
    exact foldl_min_init_comm qs 1000 q

/-- The strictly-sorted-entries property of the compiled, sorted `pdict`
of an ensemble. -/
theorem pdOf_sorted (d : ℕ) (trees : List JTree) :
    ∀ kv ∈ pdOf d trees, kv.2.Pairwise (fun x y => x.1 < y.1) := by
  intro kv hkv
  obtain ⟨hWF, -, -, -, -⟩ := compileBinary_spec d trees
  exact (sortedPdict_spec (compileBinary d trees).1.node_list hWF.2 kv hkv).1

/-- Characterization of the reconstruction nudge: the two sequential
`if`s collapse to one case split on the rounded variable value. -/
theorem reconStep_eq (g xv t pv : ℚ) :
    reconStep g xv (t, pv) =
      if 1 / 2 < pv then (if t ≤ xv then t - g else xv)
      else (if xv < t then t + g else xv) := by
  simp only [reconStep]
  by_cases h1 : 1 / 2 < pv
  · have h1' : ¬ pv ≤ 1 / 2 := not_le.mpr h1
    by_cases h2 : t ≤ xv
    · have hc1 : 1 / 2 < pv ∧ t ≤ xv := ⟨h1, h2⟩
      rw [if_pos hc1, if_neg (fun hh => h1' hh.1), if_pos h1, if_pos h2]
    · have hc1 : ¬ (1 / 2 < pv ∧ t ≤ xv) := fun hh => h2 hh.2
      rw [if_neg hc1, if_neg (fun hh => h1' hh.1), if_pos h1, if_neg h2]
  · have h1' : pv ≤ 1 / 2 := not_lt.mp h1
    have hc1 : ¬ (1 / 2 < pv ∧ t ≤ xv) := fun hh => h1 hh.1
    by_cases h2 : xv < t
    · have hc2 : pv ≤ 1 / 2 ∧ xv < t := ⟨h1', h2⟩
      rw [if_neg hc1, if_pos hc2, if_neg h1, if_pos h2]
    · rw [if_neg hc1, if_neg (fun hh => h2 hh.2), if_neg h1, if_neg h2]

theorem reconFold_append (g xv : ℚ) (A B : List (ℚ × ℚ)) :
    reconFold g xv (A ++ B) = reconFold g (reconFold g xv A) B :=
  List.foldl_append _ _ _ _

theorem reconStep_zero (g xv : ℚ) (e : ℚ × ℚ) (he : e.2 = 0) :
    reconStep g xv e = if xv < e.1 then e.1 + g else xv := by
  have h := reconStep_eq g xv e.1 e.2
  rw [Prod.mk.eta] at h
  rw [h, if_neg (by rw [he]; norm_num)]

theorem reconStep_one (g xv : ℚ) (e : ℚ × ℚ) (he : e.2 = 1) :
    reconStep g xv e = if e.1 ≤ xv then e.1 - g else xv := by
  have h := reconStep_eq g xv e.1 e.2
  rw [Prod.mk.eta] at h
  rw [h, if_pos (by rw [he]; norm_num)]

theorem phaseA (g : ℚ) (hg : 0 < g) :
    ∀ (A : List (ℚ × ℚ)) (xv : ℚ), (∀ e ∈ A, e.2 = 0) →
      A.Pairwise (fun e f => e.1 ≤ f.1) →
      (∀ e ∈ A, e.1 ≤ reconFold g xv A) ∧
      (reconFold g xv A = xv ∨ ∃ e ∈ A, reconFold g xv A = e.1 + g) := by
  intro A
  induction A with
  | nil => intro xv _ _; exact ⟨by simp, Or.inl rfl⟩
  | cons e A ih =>
      intro xv hz hsort
      have he0 : e.2 = 0 := hz e (List.mem_cons_self e A)
      have hstep : reconStep g xv e = if xv < e.1 then e.1 + g else xv :=
        reconStep_zero g xv e he0
      have hfold : reconFold g xv (e :: A) = reconFold g (reconStep g xv e) A := rfl
      have hxv1 : e.1 ≤ reconStep g xv e := by
        rw [hstep]
        split_ifs with h
        · linarith
        · linarith
      obtain ⟨hge, hshape⟩ := ih (reconStep g xv e)
        (fun f hf => hz f (List.mem_cons_of_mem e hf))
        (List.pairwise_cons.mp hsort).2
      constructor
      · intro f hf
        rcases List.mem_cons.mp hf with h | h
        · subst h
          rw [hfold]
          rcases hshape with h2 | ⟨f', hf', h2⟩
          · rw [h2]
            exact hxv1
          · rw [h2]
            have := (List.pairwise_cons.mp hsort).1 f' hf'
            linarith
        · rw [hfold]
          exact hge f h
      · rw [hfold]
        rcases hshape with h2 | ⟨f', hf', h2⟩
        · rw [h2, hstep]
          split_ifs with hcond
          · exact Or.inr ⟨e, List.mem_cons_self e A, rfl⟩
          · exact Or.inl rfl
        · exact Or.inr ⟨f', List.mem_cons_of_mem e hf', h2⟩

theorem phaseB_cons (g : ℚ) (hg : 0 < g) :
    ∀ (B : List (ℚ × ℚ)) (e : ℚ × ℚ) (xv : ℚ),
      (∀ f ∈ e :: B, f.2 = 1) →
      (e :: B).Pairwise (fun a b => a.1 < b.1) →
      reconFold g xv (e :: B) = if xv < e.1 then xv else e.1 - g := by
  intro B
  induction B with
  | nil =>
      intro e xv h1 _
      have hstep := reconStep_one g xv e (h1 e (List.mem_cons_self e []))
      show reconStep g xv e = _
      rw [hstep]
      split_ifs with h2 h3
      · linarith
      · rfl
      · rfl
      · linarith
  | cons f B ih =>
      intro e xv h1 hsort
      have hef : e.1 < f.1 := (List.pairwise_cons.mp hsort).1 f (List.mem_cons_self f B)
      have hfold : reconFold g xv (e :: f :: B) =
          reconFold g (reconStep g xv e) (f :: B) := rfl
      have hstep := reconStep_one g xv e (h1 e (List.mem_cons_self e (f :: B)))
      have hrec := ih f (reconStep g xv e)
        (fun q hq => h1 q (List.mem_cons_of_mem e hq))
        (List.pairwise_cons.mp hsort).2
      rw [hfold, hrec, hstep]
      by_cases hcase : e.1 ≤ xv
      · rw [if_pos hcase]
        have hlt : e.1 - g < f.1 := by linarith
        rw [if_pos hlt, if_neg (not_lt.mpr hcase)]
      · have hxe : xv < e.1 := not_le.mp hcase
        rw [if_neg hcase]
        have hlt : xv < f.1 := by linarith
        rw [if_pos hlt, if_pos hxe]

theorem ones_propagate (g : ℚ) :
    ∀ (lst : List (ℚ × ℚ)) (c : ℚ × ℚ), c.2 = 1 →
      (∀ e ∈ lst, e.2 = 0 ∨ e.2 = 1) →
      (c :: lst).Chain' (fun e f => e.2 ≤ f.2) →
      ∀ e ∈ c :: lst, e.2 = 1 := by
  intro lst
  induction lst with
  | nil =>
      intro c hc _ _ e he
      rcases List.mem_cons.mp he with h | h
      · rw [h]; exact hc
      · simp at h
  | cons f lst ih =>
      intro c hc hbin hch e he
      have hcf : c.2 ≤ f.2 := (List.chain'_cons.mp hch).1
      have hf1 : f.2 = 1 := by
        rcases hbin f (List.mem_cons_self f lst) with h | h
        · rw [hc] at hcf; rw [h] at hcf; linarith
        · exact h
      rcases List.mem_cons.mp he with h | h
      · rw [h]; exact hc
      · exact ih f hf1 (fun q hq => hbin q (List.mem_cons_of_mem f hq))
          (List.chain'_cons.mp hch).2 e h

theorem monotone_binary_split :
    ∀ (lst : List (ℚ × ℚ)), (∀ e ∈ lst, e.2 = 0 ∨ e.2 = 1) →
      lst.Chain' (fun e f => e.2 ≤ f.2) →
      ∃ A B, lst = A ++ B ∧ (∀ e ∈ A, e.2 = 0) ∧ (∀ e ∈ B, e.2 = 1) := by
  intro lst
  induction lst with
  | nil => intro _ _; exact ⟨[], [], rfl, by simp, by simp⟩
  | cons e lst ih =>
      intro hbin hch
      rcases hbin e (List.mem_cons_self e lst) with h0 | h1
      · obtain ⟨A, B, heq, hA, hB⟩ :=
          ih (fun q hq => hbin q (List.mem_cons_of_mem e hq)) hch.tail
        refine ⟨e :: A, B, by rw [heq]; rfl, ?_, hB⟩
        intro q hq
        rcases List.mem_cons.mp hq with h | h
        · rw [h]; exact h0
        · exact hA q h
      · refine ⟨[], e :: lst, rfl, by simp, ?_⟩
        exact ones_propagate 0 lst e h1
          (fun q hq => hbin q (List.mem_cons_of_mem e hq)) hch

theorem reconFold_consistent (g : ℚ) (hg : 0 < g) (lst : List (ℚ × ℚ)) (xv : ℚ)
    (hbin : ∀ e ∈ lst, e.2 = 0 ∨ e.2 = 1)
    (hmono : lst.Chain' (fun e f => e.2 ≤ f.2))
    (hgap : lst.Pairwise (fun e f => e.1 + g < f.1)) :
    ∀ e ∈ lst, (reconFold g xv lst < e.1 ↔ e.2 = 1) := by
  obtain ⟨A, B, heq, hA, hB⟩ := monotone_binary_split lst hbin hmono
  subst heq
  have hgapA : A.Pairwise (fun e f => e.1 + g < f.1) := (List.pairwise_append.mp hgap).1
  have hgapB : B.Pairwise (fun e f => e.1 + g < f.1) :=
    (List.pairwise_append.mp hgap).2.1
  have hcross := (List.pairwise_append.mp hgap).2.2
  have hsortA : A.Pairwise (fun e f => e.1 ≤ f.1) :=
    hgapA.imp (by intro a b h; linarith)
  have hsortB : B.Pairwise (fun e f => e.1 < f.1) :=
    hgapB.imp (by intro a b h; linarith)
  obtain ⟨hgeA, -⟩ := phaseA g hg A xv hA hsortA
  intro e he
  cases B with
  | nil =>
      rw [List.append_nil] at he
      rw [List.append_nil]
      constructor
      · intro hlt
        exact absurd hlt (not_lt.mpr (hgeA e he))
      · intro h1
        rw [hA e he] at h1
        norm_num at h1
  | cons f B =>
      rw [reconFold_append, phaseB_cons g hg B f (reconFold g xv A) hB hsortB]
      by_cases hcase : reconFold g xv A < f.1
      · rw [if_pos hcase]
        rcases List.mem_append.mp he with heA | heB
        · constructor
          · intro hlt
            exact absurd hlt (not_lt.mpr (hgeA e heA))
          · intro h1
            rw [hA e heA] at h1
            norm_num at h1
        · constructor
          · intro _
            exact hB e heB
          · intro _
            rcases List.mem_cons.mp heB with h | h
            · rw [h]; exact hcase
            · have := (List.pairwise_cons.mp hsortB).1 e h
              linarith
      · rw [if_neg hcase]
        rcases List.mem_append.mp he with heA | heB
        · have hcr := hcross e heA f (List.mem_cons_self f B)
          constructor
          · intro hlt
            linarith
          · intro h1
            rw [hA e heA] at h1
            norm_num at h1
        · constructor
          · intro _
            exact hB e heB
          · intro _
            rcases List.mem_cons.mp heB with h | h
            · rw [h]; linarith
            · have := (List.pairwise_cons.mp hsortB).1 e h
              linarith

theorem pdKeys_sortedPdict (nl : List NodeW) :
    pdKeys (sortedPdict nl) = pdKeys (pdictRaw nl) := by
  unfold pdKeys sortedPdict
  rw [List.map_map]
  rfl

theorem reconstruct_apply (g : ℚ) (p : ℕ → ℚ) :
    ∀ (pd : List (ℕ × List (ℚ × ℕ))) (x : ℕ → ℚ), (pdKeys pd).Nodup →
      (∀ kv ∈ pd, reconstruct g pd p x kv.1 =
        reconFold g (x kv.1) (kv.2.map (fun ti => (ti.1, p ti.2)))) ∧
      (∀ a, a ∉ pdKeys pd → reconstruct g pd p x a = x a) := by
  intro pd
  induction pd with
  | nil => intro x _; exact ⟨by simp, fun a _ => rfl⟩
  | cons kv pd ih =>
      intro x hnodup
      have hcons : (kv.1 :: pdKeys pd).Nodup := by simpa [pdKeys] using hnodup
      have hhd : kv.1 ∉ pdKeys pd := (List.nodup_cons.mp hcons).1
      have htl : (pdKeys pd).Nodup := (List.nodup_cons.mp hcons).2
      have hfold : reconstruct g (kv :: pd) p x = reconstruct g pd p
          (Function.update x kv.1
            (reconFold g (x kv.1) (kv.2.map (fun ti => (ti.1, p ti.2))))) := rfl
      obtain ⟨hin, hout⟩ := ih (Function.update x kv.1
        (reconFold g (x kv.1) (kv.2.map (fun ti => (ti.1, p ti.2))))) htl
      constructor
      · intro kv' hkv'
        rcases List.mem_cons.mp hkv' with h | h
        · subst h
          rw [hfold, hout kv'.1 hhd, Function.update_same]
        · have hne : kv'.1 ≠ kv.1 := by
            intro he
            exact hhd (by rw [← he]; exact List.mem_map.mpr ⟨kv', h, rfl⟩)
          rw [hfold, hin kv' h, Function.update_noteq hne]
      · intro a ha
        have ha2 : a ∉ pdKeys pd := by
          intro h
          exact ha (by simp [pdKeys]; right; simpa [pdKeys] using h)
        have hane : a ≠ kv.1 := by
          intro he
          exact ha (by simp [pdKeys, he])
        rw [hfold, hout a ha2, Function.update_noteq hane]

theorem chain'_of_consecPairs {α : Type} {R : α → α → Prop} :
    ∀ l : List α, (∀ ab ∈ consecPairs l, R ab.1 ab.2) → l.Chain' R := by
  intro l
  induction l with
  | nil => intro _; exact List.chain'_nil
  | cons x xs ih =>
      intro h
      cases xs with
      | nil => exact List.chain'_singleton x
      | cons y ys =>
          have hdecomp : consecPairs (x :: y :: ys) = (x, y) :: consecPairs (y :: ys) := rfl
          rw [List.chain'_cons]
          refine ⟨h (x, y) (by rw [hdecomp]; exact List.mem_cons_self _ _), ?_⟩
          exact ih (fun ab hab => h ab (by rw [hdecomp]; exact List.mem_cons_of_mem _ hab))

theorem sum_nonneg_zero (l : ℕ → ℚ) :
    ∀ idxs : List ℕ, (∀ j ∈ idxs, 0 ≤ l j) → ((idxs.map l).sum ≤ 0) →
      ∀ j ∈ idxs, l j = 0 := by
  intro idxs
  induction idxs with
  | nil => intro _ _ j hj; simp at hj
  | cons i idxs ih =>
      intro hpos hsum j hj
      rw [List.map_cons, List.sum_cons] at hsum
      have hrest : 0 ≤ (idxs.map l).sum := by
        apply List.sum_nonneg
        intro q hq
        obtain ⟨j', hj', he⟩ := List.mem_map.mp hq
        rw [← he]
        exact hpos j' (List.mem_cons_of_mem i hj')
      have hipos := hpos i (List.mem_cons_self i idxs)
      rcases List.mem_cons.mp hj with h | h
      · subst h
        linarith
      · exact ih (fun q hq => hpos q (List.mem_cons_of_mem i hq)) (by linarith) j h

theorem sum_single (f : ℕ → ℚ) :
    ∀ (idxs : List ℕ) (j0 : ℕ), j0 ∈ idxs → idxs.Nodup →
      (∀ j ∈ idxs, j ≠ j0 → f j = 0) → (idxs.map f).sum = f j0 := by
  intro idxs
  induction idxs with
  | nil => intro j0 h; simp at h
  | cons i idxs ih =>
      intro j0 hmem hnodup hz
      rw [List.map_cons, List.sum_cons]
      rcases List.mem_cons.mp hmem with h | h
      · subst h
        have hrest : (idxs.map f).sum = 0 := by
          apply List.sum_eq_zero
          intro q hq
          obtain ⟨j', hj', he⟩ := List.mem_map.mp hq
          rw [← he]
          refine hz j' (List.mem_cons_of_mem j0 hj') ?_
          intro heq
          exact (List.nodup_cons.mp hnodup).1 (heq ▸ hj')
        rw [hrest]
        ring
      · have hine : i ≠ j0 := by
          intro he
          exact (List.nodup_cons.mp hnodup).1 (he ▸ h)
        rw [hz i (List.mem_cons_self i idxs) hine,
          ih j0 h (List.nodup_cons.mp hnodup).2
            (fun q hq hne => hz q (List.mem_cons_of_mem i hq) hne)]
        ring

theorem pathIdx_bounds (x : ℕ → ℚ) :
    ∀ (t : JTree) (o : ℕ), o ≤ pathIdx x t o ∧ pathIdx x t o < o + t.numLeaves := by
  intro t
  induction t with
  | leaf v => intro o; exact ⟨le_refl o, by simp [pathIdx, JTree.numLeaves]⟩
  | node a th yes no ihy ihn =>
      intro o
      unfold pathIdx
      split_ifs with h
      · obtain ⟨h1, h2⟩ := ihy o
        exact ⟨h1, by simp only [JTree.numLeaves]; omega⟩
      · obtain ⟨h1, h2⟩ := ihn (o + yes.numLeaves)
        exact ⟨by omega, by simp only [JTree.numLeaves]; omega⟩

theorem pathIdx_mem_range (x : ℕ → ℚ) (t : JTree) (o : ℕ) :
    pathIdx x t o ∈ List.range' o t.numLeaves := by
  obtain ⟨h1, h2⟩ := pathIdx_bounds x t o
  rw [List.mem_range']
  exact ⟨pathIdx x t o - o, by omega, by omega⟩

theorem leafVals_getD_pathIdx (x : ℕ → ℚ) :
    ∀ (t : JTree) (o : ℕ), (t.leafVals false).getD (pathIdx x t o - o) 0 = check1 x t := by
  intro t
  induction t with
  | leaf v => intro o; simp [JTree.leafVals, pathIdx, check1]
  | node a th yes no ihy ihn =>
      intro o
      unfold pathIdx check1 JTree.leafVals
      split_ifs with h
      · obtain ⟨h1, h2⟩ := pathIdx_bounds x yes o
        rw [List.getD_append _ _ _ _ (by rw [leafVals_length]; omega)]
        exact ihy o
      · obtain ⟨h1, h2⟩ := pathIdx_bounds x no (o + yes.numLeaves)
        rw [List.getD_append_right _ _ _ _ (by rw [leafVals_length]; omega)]
        rw [leafVals_length]
        have harith : pathIdx x no (o + yes.numLeaves) - o - yes.numLeaves =
            pathIdx x no (o + yes.numLeaves) - (o + yes.numLeaves) := by omega
        rw [harith]
        exact ihn (o + yes.numLeaves)

theorem range'_split (o m n : ℕ) :
    List.range' o (m + n) = List.range' o m ++ List.range' (o + m) n := by
  have h := List.range'_append o m n 1
  simp only [one_mul] at h
  rw [Nat.add_comm m n, ← h]

theorem tree_forcing (d : ℕ) (x' l : ℕ → ℚ) (pval : (ℕ × ℚ) → ℚ) :
    ∀ (t : JTree) (o : ℕ) (rt : Bool) (s : ℚ),
      (∀ th ∈ treeThresholds t, pyRound d th = th) →
      (∀ pr ∈ (occsOf d o rt t).map (fun e => e.1), pval pr = 0 ∨ pval pr = 1) →
      (∀ pr ∈ (occsOf d o rt t).map (fun e => e.1), (x' pr.1 < pr.2 ↔ pval pr = 1)) →
      (∀ e ∈ occsOf d o rt t, occIneqs (pval e.1) l e.2) →
      (∀ j ∈ List.range' o t.numLeaves, 0 ≤ l j) →
      ((List.range' o t.numLeaves).map l).sum = s →
      (∀ j ∈ List.range' o t.numLeaves, j ≠ pathIdx x' t o → l j = 0) ∧
      l (pathIdx x' t o) = s := by
  intro t
  induction t with
  | leaf v =>
      intro o rt s _ _ _ _ _ hsum
      have hrange : List.range' o (JTree.leaf v).numLeaves = [o] := by
        simp [JTree.numLeaves, List.range']
      rw [hrange] at hsum
      simp only [List.map_cons, List.map_nil, List.sum_cons, List.sum_nil,
        add_zero] at hsum
      constructor
      · intro j hj hne
        rw [hrange] at hj
        simp only [List.mem_singleton] at hj
        exact absurd (by rw [hj]; rfl) hne
      · exact hsum
  | node a th yes no ihy ihn =>
      intro o rt s hround hbin hcons hineqs hl0 hsum
      have hoccdec : occsOf d o rt (JTree.node a th yes no) =
          (occsOf d o false yes ++ occsOf d (o + yes.numLeaves) false no) ++
            [((a, pyRound d th),
              ⟨List.range' o yes.numLeaves,
               List.range' (o + yes.numLeaves) no.numLeaves, rt⟩)] := by
        rw [occsOf]
      have hself : ((a, pyRound d th),
          (⟨List.range' o yes.numLeaves,
            List.range' (o + yes.numLeaves) no.numLeaves, rt⟩ : Occ)) ∈
          occsOf d o rt (JTree.node a th yes no) := by
        rw [hoccdec]
        exact List.mem_append_right _ (List.mem_singleton.mpr rfl)
      have hthr : pyRound d th = th :=
        hround th (by rw [treeThresholds]; exact List.mem_cons_self _ _)
      have hIneq := hineqs _ hself
      unfold occIneqs at hIneq
      have hqbin : pval (a, pyRound d th) = 0 ∨ pval (a, pyRound d th) = 1 :=
        hbin _ (List.mem_map.mpr ⟨_, hself, rfl⟩)
      have hqcons := hcons (a, pyRound d th) (List.mem_map.mpr ⟨_, hself, rfl⟩)
      have hrangesplit : List.range' o (JTree.node a th yes no).numLeaves =
          List.range' o yes.numLeaves ++
            List.range' (o + yes.numLeaves) no.numLeaves := by
        show List.range' o (yes.numLeaves + no.numLeaves) = _
        exact range'_split o yes.numLeaves no.numLeaves
      rw [hrangesplit] at hsum hl0 ⊢
      rw [List.map_append, List.sum_append] at hsum
      have hsubY : ∀ e ∈ occsOf d o false yes,
          e ∈ occsOf d o rt (JTree.node a th yes no) := by
        intro e he
        rw [hoccdec]
        exact List.mem_append_left _ (List.mem_append_left _ he)
      have hsubN : ∀ e ∈ occsOf d (o + yes.numLeaves) false no,
          e ∈ occsOf d o rt (JTree.node a th yes no) := by
        intro e he
        rw [hoccdec]
        exact List.mem_append_left _ (List.mem_append_right _ he)
      by_cases hx : x' a < th
      · have hq1 : pval (a, pyRound d th) = 1 := hqcons.mp (by rw [hthr]; exact hx)
        have hrzero : ∀ j ∈ List.range' (o + yes.numLeaves) no.numLeaves, l j = 0 := by
          apply sum_nonneg_zero l _ (fun j hj => hl0 j (List.mem_append_right _ hj))
          have := hIneq.2
          rw [hq1] at this
          show ((List.range' (o + yes.numLeaves) no.numLeaves).map l).sum ≤ 0
          linarith
        have hsumR : ((List.range' (o + yes.numLeaves) no.numLeaves).map l).sum = 0 := by
          apply List.sum_eq_zero
          intro q hq
          obtain ⟨j, hj, he⟩ := List.mem_map.mp hq
          rw [← he]
          exact hrzero j hj
        obtain ⟨hz, hp⟩ := ihy o false s
          (fun q hq => hround q (by
            rw [treeThresholds]
            exact List.mem_cons_of_mem _ (List.mem_append_left _ hq)))
          (fun pr hpr => hbin pr (by
            obtain ⟨e, he, hee⟩ := List.mem_map.mp hpr
            exact List.mem_map.mpr ⟨e, hsubY e he, hee⟩))
          (fun pr hpr => hcons pr (by
            obtain ⟨e, he, hee⟩ := List.mem_map.mp hpr
            exact List.mem_map.mpr ⟨e, hsubY e he, hee⟩))
          (fun e he => hineqs e (hsubY e he))
          (fun j hj => hl0 j (List.mem_append_left _ hj))
          (by linarith [hsum, hsumR])
        have hpath : pathIdx x' (JTree.node a th yes no) o = pathIdx x' yes o := by
          simp only [pathIdx]
          rw [if_pos hx]
        constructor
        · intro j hj hne
          rcases List.mem_append.mp hj with hjl | hjr
          · exact hz j hjl (by rw [hpath] at hne; exact hne)
          · exact hrzero j hjr
        · rw [hpath]
          exact hp
      · have hq0 : pval (a, pyRound d th) = 0 := by
          rcases hqbin with h | h
          · exact h
          · exfalso
            have hh := hqcons.mpr h
            rw [hthr] at hh
            exact hx hh
        have hlzero : ∀ j ∈ List.range' o yes.numLeaves, l j = 0 := by
          apply sum_nonneg_zero l _ (fun j hj => hl0 j (List.mem_append_left _ hj))
          have := hIneq.1
          rw [hq0] at this
          show ((List.range' o yes.numLeaves).map l).sum ≤ 0
          linarith
        have hsumL : ((List.range' o yes.numLeaves).map l).sum = 0 := by
          apply List.sum_eq_zero
          intro q hq
          obtain ⟨j, hj, he⟩ := List.mem_map.mp hq
          rw [← he]
          exact hlzero j hj
        obtain ⟨hz, hp⟩ := ihn (o + yes.numLeaves) false s
          (fun q hq => hround q (by
            rw [treeThresholds]
            exact List.mem_cons_of_mem _ (List.mem_append_right _ hq)))
          (fun pr hpr => hbin pr (by
            obtain ⟨e, he, hee⟩ := List.mem_map.mp hpr
            exact List.mem_map.mpr ⟨e, hsubN e he, hee⟩))
          (fun pr hpr => hcons pr (by
            obtain ⟨e, he, hee⟩ := List.mem_map.mp hpr
            exact List.mem_map.mpr ⟨e, hsubN e he, hee⟩))
          (fun e he => hineqs e (hsubN e he))
          (fun j hj => hl0 j (List.mem_append_right _ hj))
          (by linarith [hsum, hsumL])
        have hpath : pathIdx x' (JTree.node a th yes no) o =
            pathIdx x' no (o + yes.numLeaves) := by
          simp only [pathIdx]
          rw [if_neg hx]
        constructor
        · intro j hj hne
          rcases List.mem_append.mp hj with hjl | hjr
          · exact hlzero j hjl
          · exact hz j hjr (by rw [hpath] at hne; exact hne)
        · rw [hpath]
          exact hp

theorem tree_contrib (d : ℕ) (x' l : ℕ → ℚ) (pval : (ℕ × ℚ) → ℚ)
    (t : JTree) (o : ℕ) (rt : Bool) (v : ℕ → ℚ)
    (hround : ∀ th ∈ treeThresholds t, pyRound d th = th)
    (hbin : ∀ pr ∈ (occsOf d o rt t).map (fun e => e.1), pval pr = 0 ∨ pval pr = 1)
    (hcons : ∀ pr ∈ (occsOf d o rt t).map (fun e => e.1), (x' pr.1 < pr.2 ↔ pval pr = 1))
    (hineqs : ∀ e ∈ occsOf d o rt t, occIneqs (pval e.1) l e.2)
    (hl0 : ∀ j ∈ List.range' o t.numLeaves, 0 ≤ l j)
    (hsum1 : ((List.range' o t.numLeaves).map l).sum = 1)
    (hv : ∀ k, k < t.numLeaves → v (o + k) = (t.leafVals false).getD k 0) :
    ((List.range' o t.numLeaves).map (fun j => v j * l j)).sum = check1 x' t := by
  obtain ⟨hz, hp⟩ := tree_forcing d x' l pval t o rt 1 hround hbin hcons hineqs hl0 hsum1
  have hpmem := pathIdx_mem_range x' t o
  have hnodup : (List.range' o t.numLeaves).Nodup := List.nodup_range' o t.numLeaves
  have hsingle := sum_single (fun j => v j * l j) (List.range' o t.numLeaves)
    (pathIdx x' t o) hpmem hnodup
    (fun j hj hne => by show v j * l j = 0; rw [hz j hj hne]; ring)
  rw [hsingle]
  show v (pathIdx x' t o) * l (pathIdx x' t o) = check1 x' t
  rw [hp]
  obtain ⟨h1, h2⟩ := pathIdx_bounds x' t o
  have hvp := hv (pathIdx x' t o - o) (by omega)
  rw [show o + (pathIdx x' t o - o) = pathIdx x' t o by omega] at hvp
  rw [hvp, leafVals_getD_pathIdx]
  ring

theorem check_cons (x : ℕ → ℚ) (t : JTree) (ts : List JTree) :
    check x (t :: ts) = check1 x t + check x ts := by
  simp [check]

theorem allThresholds_cons (t : JTree) (ts : List JTree) :
    allThresholds (t :: ts) = treeThresholds t ++ allThresholds ts := by
  simp [allThresholds]

theorem ensemble_contrib (d : ℕ) (x' l : ℕ → ℚ) (pval : (ℕ × ℚ) → ℚ) :
    ∀ (ts : List JTree) (o : ℕ) (v : ℕ → ℚ),
      (∀ th ∈ allThresholds ts, pyRound d th = th) →
      (∀ pr ∈ (allOccsAux d o ts).map (fun e => e.1), pval pr = 0 ∨ pval pr = 1) →
      (∀ pr ∈ (allOccsAux d o ts).map (fun e => e.1), (x' pr.1 < pr.2 ↔ pval pr = 1)) →
      (∀ e ∈ allOccsAux d o ts, occIneqs (pval e.1) l e.2) →
      (∀ j ∈ List.range' o (ts.map JTree.numLeaves).sum, 0 ≤ l j) →
      (∀ i (hi : i < ts.length),
        ((List.range' (o + offsetOf ts i) (ts.get ⟨i, hi⟩).numLeaves).map l).sum = 1) →
      (∀ k, k < (ts.map JTree.numLeaves).sum →
        v (o + k) = ((ts.map (JTree.leafVals false)).flatten).getD k 0) →
      ((List.range' o ((ts.map JTree.numLeaves).sum)).map (fun j => v j * l j)).sum =
        check x' ts := by
  intro ts
  induction ts with
  | nil => intro o v _ _ _ _ _ _ _; simp [check]
  | cons t ts ih =>
      intro o v hround hbin hcons hineqs hl0 hsum hv
      have hsplit : List.range' o (((t :: ts).map JTree.numLeaves).sum) =
          List.range' o t.numLeaves ++
            List.range' (o + t.numLeaves) ((ts.map JTree.numLeaves).sum) := by
        show List.range' o (t.numLeaves + (ts.map JTree.numLeaves).sum) = _
        exact range'_split _ _ _
      rw [hsplit, List.map_append, List.sum_append]
      have hoccdec : allOccsAux d o (t :: ts) =
          occsOf d o true t ++ allOccsAux d (o + t.numLeaves) ts := rfl
      have hpart1 := tree_contrib d x' l pval t o true v
        (fun q hq => hround q (by
          rw [allThresholds_cons]
          exact List.mem_append_left _ hq))
        (fun pr hpr => hbin pr (by
          obtain ⟨e, he, hee⟩ := List.mem_map.mp hpr
          exact List.mem_map.mpr ⟨e, by rw [hoccdec]; exact List.mem_append_left _ he, hee⟩))
        (fun pr hpr => hcons pr (by
          obtain ⟨e, he, hee⟩ := List.mem_map.mp hpr
          exact List.mem_map.mpr ⟨e, by rw [hoccdec]; exact List.mem_append_left _ he, hee⟩))
        (fun e he => hineqs e (by rw [hoccdec]; exact List.mem_append_left _ he))
        (fun j hj => hl0 j (by rw [hsplit]; exact List.mem_append_left _ hj))
        (by
          have h0 := hsum 0 (by simp)
          simpa [offsetOf] using h0)
        (fun k hk => by
          have := hv k (by
            rw [List.map_cons, List.sum_cons]
            omega)
          rw [this, List.map_cons, List.flatten_cons,
            List.getD_append _ _ _ _ (by rw [leafVals_length]; exact hk)])
      have hpart2 := ih (o + t.numLeaves) v
        (fun q hq => hround q (by
          rw [allThresholds_cons]
          exact List.mem_append_right _ hq))
        (fun pr hpr => hbin pr (by
          obtain ⟨e, he, hee⟩ := List.mem_map.mp hpr
          exact List.mem_map.mpr ⟨e, by rw [hoccdec]; exact List.mem_append_right _ he, hee⟩))
        (fun pr hpr => hcons pr (by
          obtain ⟨e, he, hee⟩ := List.mem_map.mp hpr
          exact List.mem_map.mpr ⟨e, by rw [hoccdec]; exact List.mem_append_right _ he, hee⟩))
        (fun e he => hineqs e (by rw [hoccdec]; exact List.mem_append_right _ he))
        (fun j hj => hl0 j (by rw [hsplit]; exact List.mem_append_right _ hj))
        (fun i hi => by
          have h1 := hsum (i + 1) (by simpa using Nat.succ_lt_succ hi)
          have hoff : offsetOf (t :: ts) (i + 1) = t.numLeaves + offsetOf ts i :=
            offsetOf_cons t ts i
          rw [hoff] at h1
          have harith : o + (t.numLeaves + offsetOf ts i) =
              o + t.numLeaves + offsetOf ts i := by omega
          rw [harith] at h1
          have hget : (t :: ts).get ⟨i + 1, by simpa using Nat.succ_lt_succ hi⟩ =
              ts.get ⟨i, hi⟩ := rfl
          rw [hget] at h1
          exact h1)
        (fun k hk => by
          have := hv (t.numLeaves + k) (by
            rw [List.map_cons, List.sum_cons]
            omega)
          have harith : o + (t.numLeaves + k) = o + t.numLeaves + k := by omega
          rw [harith] at this
          rw [this, List.map_cons, List.flatten_cons,
            List.getD_append_right _ _ _ _ (by rw [leafVals_length]; omega),
            leafVals_length]
          congr 1
          omega)
      rw [hpart1, hpart2, check_cons]

theorem offsetOf_succ (ts : List JTree) (i : ℕ) (hi : i < ts.length) :
    offsetOf ts (i + 1) = offsetOf ts i + (ts.get ⟨i, hi⟩).numLeaves := by
  unfold offsetOf
  rw [List.take_succ, List.map_append, List.sum_append]
  congr 1
  rw [List.getElem?_eq_getElem hi]
  simp

theorem enumFrom_weight_sum (l : ℕ → ℚ) :
    ∀ (lv : List ℚ) (k : ℕ),
      ((lv.enumFrom k).map (fun jv => jv.2 * l jv.1)).sum =
        ((List.range' k lv.length).map (fun j => lv.getD (j - k) 0 * l j)).sum := by
  intro lv
  induction lv with
  | nil => intro k; simp
  | cons q lv ih =>
      intro k
      rw [List.enumFrom_cons, List.map_cons, List.sum_cons]
      have hrange : List.range' k (q :: lv).length = k :: List.range' (k + 1) lv.length := by
        simp [List.range']
      rw [hrange, List.map_cons, List.sum_cons]
      have hhead : (q :: lv).getD (k - k) 0 * l k = q * l k := by
        rw [Nat.sub_self]
        rfl
      rw [hhead, ih (k + 1)]
      have hmap : List.map (fun j => lv.getD (j - (k + 1)) 0 * l j)
            (List.range' (k + 1) lv.length)
          = List.map (fun j => (q :: lv).getD (j - k) 0 * l j)
            (List.range' (k + 1) lv.length) := by
        apply List.map_congr_left
        intro j hj
        rw [List.mem_range'] at hj
        obtain ⟨i, hi, hji⟩ := hj
        have hidx : j - k = (j - (k + 1)) + 1 := by omega
        rw [hidx]
        rfl
      rw [hmap]

theorem enum_weight_sum (l : ℕ → ℚ) (lv : List ℚ) :
    ((lv.enum).map (fun jv => jv.2 * l jv.1)).sum =
      ((List.range' 0 lv.length).map (fun j => lv.getD j 0 * l j)).sum := by
  have h := enumFrom_weight_sum l lv 0
  rw [show lv.enumFrom 0 = lv.enum from rfl] at h
  rw [h]
  apply congrArg
  apply List.map_congr_left
  intro j _
  rw [Nat.sub_zero]

/-- Characterization of the node-leaf coupling checker: equalities for
root occurrences, inequalities for non-root ones, entry by entry. -/
theorem nodeLeafOK_iff (nl : List NodeW) (p l : ℕ → ℚ) :
    nodeLeafOK nl p l = true ↔
      ∀ j (hj : j < nl.length), ∀ o ∈ (nl.get ⟨j, hj⟩).leaves_lists,
        (o.root = true →
          ((o.left.map l).sum - p j = 0 ∧ (o.right.map l).sum + p j = 1)) ∧
        (o.root = false →
          ((o.left.map l).sum - p j ≤ 0 ∧ (o.right.map l).sum + p j ≤ 1)) := by
  unfold nodeLeafOK
  rw [List.all_eq_true]
  constructor
  · intro h j hj o ho
    have hj' := h j (List.mem_range.mpr hj)
    rw [List.all_eq_true] at hj'
    have hgetD : nl.getD j ⟨0, 0, []⟩ = nl.get ⟨j, hj⟩ := by
      rw [List.getD_eq_getElem _ _ hj, List.get_eq_getElem]
    rw [hgetD] at hj'
    have hc := hj' o ho
    unfold occConstrOK at hc
    cases hroot : o.root with
    | true =>
        rw [hroot, if_pos rfl] at hc
        rw [Bool.and_eq_true, decide_eq_true_eq, decide_eq_true_eq] at hc
        exact ⟨fun _ => hc, fun hfalse => absurd hfalse (by simp)⟩
    | false =>
        rw [hroot, if_neg (by simp)] at hc
        rw [Bool.and_eq_true, decide_eq_true_eq, decide_eq_true_eq] at hc
        exact ⟨fun htrue => absurd htrue (by simp), fun _ => hc⟩
  · intro h j hjmem
    rw [List.all_eq_true]
    intro o ho
    have hj := List.mem_range.mp hjmem
    have hgetD : nl.getD j ⟨0, 0, []⟩ = nl.get ⟨j, hj⟩ := by
      rw [List.getD_eq_getElem _ _ hj, List.get_eq_getElem]
    rw [hgetD] at ho
    have hc := h j hj o ho
    unfold occConstrOK
    cases hroot : o.root with
    | true =>
        rw [if_pos rfl]
        rw [Bool.and_eq_true, decide_eq_true_eq, decide_eq_true_eq]
        exact hc.1 hroot
    | false =>
        rw [if_neg (by simp)]
        rw [Bool.and_eq_true, decide_eq_true_eq, decide_eq_true_eq]
        exact hc.2 hroot

theorem entryIdx_spec (nl : List NodeW) (pr : ℕ × ℚ) (h : pr ∈ pairsOf nl) :
    entryIdx nl pr < nl.length ∧
      nl.find? (fun nw => decide (nw.pair = pr)) = nl.get? (entryIdx nl pr) ∧
      (nl.getD (entryIdx nl pr) ⟨0, 0, []⟩).pair = pr := by
  induction nl with
  | nil => simp [pairsOf] at h
  | cons hd tl ih =>
      by_cases hh : hd.pair = pr
      · have hidx : entryIdx (hd :: tl) pr = 0 := by
          unfold entryIdx
          rw [List.findIdx_cons]
          simp [hh]
        rw [hidx]
        exact ⟨by simp, by rw [List.find?_cons_of_pos _ (by simp [hh])]; rfl, hh⟩
      · have hmem : pr ∈ pairsOf tl := by
          rcases (by simpa [pairsOf] using h : pr = hd.pair ∨ pr ∈ tl.map NodeW.pair)
            with h1 | h1
          · exact absurd h1.symm hh
          · simpa [pairsOf] using h1
        obtain ⟨hlt, hfind, hpair⟩ := ih hmem
        have hidx : entryIdx (hd :: tl) pr = entryIdx tl pr + 1 := by
          unfold entryIdx
          rw [List.findIdx_cons]
          simp [hh]
        rw [hidx]
        refine ⟨by simp only [List.length_cons]; omega, ?_, hpair⟩
        rw [List.find?_cons_of_neg _ (by simp [hh])]
        exact hfind

theorem binaryVarsOK_spec {n : ℕ} {p : ℕ → ℚ} (h : binaryVarsOK n p = true) :
    ∀ i, i < n → p i = 0 ∨ p i = 1 := by
  intro i hi
  unfold binaryVarsOK at h
  rw [List.all_eq_true] at h
  simpa using h i (List.mem_range.mpr hi)

theorem leafBoundsOK_spec {n : ℕ} {l : ℕ → ℚ} (h : leafBoundsOK n l = true) :
    ∀ j, j < n → 0 ≤ l j ∧ l j ≤ 1 := by
  intro j hj
  unfold leafBoundsOK at h
  rw [List.all_eq_true] at h
  simpa using h j (List.mem_range.mpr hj)

theorem leafSumOK_spec {lc : List ℕ} {l : ℕ → ℚ} (h : leafSumOK lc l = true) :
    ∀ i, i < lc.length - 1 →
      ((idxRange (lc.getD i 0) (lc.getD (i + 1) 0)).map l).sum = 1 := by
  intro i hi
  unfold leafSumOK at h
  rw [List.all_eq_true] at h
  simpa using h i (List.mem_range.mpr hi)

theorem orderingOK_spec {pd : List (ℕ × List (ℚ × ℕ))} {p : ℕ → ℚ}
    (h : orderingOK pd p = true) :
    ∀ kv ∈ pd, ∀ ab ∈ consecPairs kv.2, p ab.1.2 ≤ p ab.2.2 := by
  intro kv hkv ab hab
  unfold orderingOK at h
  rw [List.all_eq_true] at h
  have h1 := h kv hkv
  rw [List.all_eq_true] at h1
  simpa using h1 ab hab

theorem mislabelOK_spec {label : ℕ} {lv : List ℚ} {l : ℕ → ℚ} {pt g : ℚ}
    (h : mislabelOK true label lv l pt g = true) :
    (label = 1 → ((lv.enum).map (fun jv => jv.2 * l jv.1)).sum ≤ pt - g) ∧
    (label ≠ 1 → pt + g ≤ ((lv.enum).map (fun jv => jv.2 * l jv.1)).sum) := by
  unfold mislabelOK at h
  by_cases hl : label = 1
  · rw [if_pos (by simp [hl])] at h
    exact ⟨fun _ => by simpa using h, fun hne => absurd hl hne⟩
  · rw [if_neg (by simp [hl])] at h
    exact ⟨fun he => absurd he hl, fun _ => by simpa using h⟩

theorem minDiffOf_le_diff (lst : List (ℚ × ℕ)) (ab : (ℚ × ℕ) × (ℚ × ℕ))
    (hab : ab ∈ consecPairs lst) : minDiffOf lst ≤ ab.2.1 - ab.1.1 := by
  unfold minDiffOf
  exact foldl_min_le_mem _ _ _ (List.mem_map.mpr ⟨ab, hab, rfl⟩)

/-- After the construction loop, consecutive sorted thresholds of every
feature are separated by strictly more than the final guard value. -/
theorem pd_gap (pd : List (ℕ × List (ℚ × ℕ)))
    (hs : ∀ kv ∈ pd, kv.2.Pairwise (fun x y => x.1 < y.1))
    (g0 : ℚ) (h0 : 0 < g0) :
    ∀ kv ∈ pd, kv.2.Pairwise (fun a b => a.1 + guardFold g0 pd < b.1) := by
  intro kv hkv
  obtain ⟨hgpos, -, hprop⟩ := guardFold_spec pd hs g0 h0
  have hchain : kv.2.Chain' (fun a b => a.1 + guardFold g0 pd < b.1) := by
    apply chain'_of_consecPairs
    intro ab hab
    have hlen : 2 ≤ kv.2.length := by
      have hpos : 0 < (consecPairs kv.2).length := List.length_pos_of_mem hab
      unfold consecPairs at hpos
      rw [List.length_zip, List.length_drop] at hpos
      omega
    have h2g := hprop kv hkv hlen
    have hd := minDiffOf_le_diff kv.2 ab hab
    linarith
  haveI : IsTrans (ℚ × ℕ) (fun a b => a.1 + guardFold g0 pd < b.1) := ⟨by
    intro a b c h1 h2
    linarith⟩
  exact List.chain'_iff_pairwise.mp hchain

theorem totalLeaves_eq (trees : List JTree) :
    ((trees.map (JTree.leafVals false)).flatten).length = totalLeaves trees := by
  rw [List.length_flatten]
  unfold totalLeaves
  rw [List.map_map]
  congr 1
  apply List.map_congr_left
  intro t _
  exact leafVals_length false t

theorem getD_map_range (f : ℕ → ℕ) (n i : ℕ) (hi : i < n) :
    ((List.range n).map f).getD i 0 = f i := by
  rw [List.getD_eq_getElem _ _ (by simpa using hi)]
  simp

/-- Every recorded occurrence of the compiled ensemble satisfies the two
coupling inequalities with the split variable of its unique entry. -/
theorem occ_constraints (d : ℕ) (trees : List JTree) (p l : ℕ → ℚ)
    (hnl : nodeLeafOK (compileBinary d trees).1.node_list p l = true) :
    ∀ e ∈ allOccs d trees,
      occIneqs (p (entryIdx (compileBinary d trees).1.node_list e.1)) l e.2 := by
  intro e he
  obtain ⟨hWF, -, -, hocc, hmem⟩ := compileBinary_spec d trees
  have hpr : e.1 ∈ pairsOf (compileBinary d trees).1.node_list :=
    (hmem e.1).mpr (List.mem_map.mpr ⟨e, he, rfl⟩)
  obtain ⟨hlt, hfind, hpair⟩ := entryIdx_spec _ e.1 hpr
  have hmemocc : e.2 ∈ entryOccs (compileBinary d trees).1.node_list e.1 := by
    rw [hocc e.1]
    exact List.mem_map.mpr ⟨e, List.mem_filter.mpr ⟨he, by simp⟩, rfl⟩
  have hfind2 : (compileBinary d trees).1.node_list.find?
      (fun nw => decide (nw.pair = e.1)) =
      some ((compileBinary d trees).1.node_list.getD
        (entryIdx (compileBinary d trees).1.node_list e.1) ⟨0, 0, []⟩) := by
    rw [hfind, List.get?_eq_getElem?, List.getElem?_eq_getElem hlt,
      List.getD_eq_getElem _ _ hlt]
  rw [entryOccs, hfind2] at hmemocc
  have hC := (nodeLeafOK_iff (compileBinary d trees).1.node_list p l).mp hnl
    (entryIdx (compileBinary d trees).1.node_list e.1) hlt e.2 (by
      rw [List.get_eq_getElem, ← List.getD_eq_getElem _ (⟨0, 0, []⟩ : NodeW) hlt]
      exact hmemocc)
  cases hroot : e.2.root with
  | true =>
      obtain ⟨h1, h2⟩ := hC.1 hroot
      exact ⟨by linarith, by linarith⟩
  | false =>
      obtain ⟨h1, h2⟩ := hC.2 hroot
      exact ⟨by linarith, by linarith⟩

/-- Consistency of the reconstruction with the solved split variables:
the rebuilt input is below a recorded threshold exactly when the
corresponding split variable is `1`. -/
theorem recon_consistency (g0 : ℚ) (nl : List NodeW) (p x : ℕ → ℚ)
    (hg0 : 0 < g0)
    (hnodup : (pairsOf nl).Nodup)
    (hbin : ∀ i, i < nl.length → p i = 0 ∨ p i = 1)
    (hord : ∀ kv ∈ sortedPdict nl, ∀ ab ∈ consecPairs kv.2, p ab.1.2 ≤ p ab.2.2) :
    ∀ pr ∈ pairsOf nl,
      (reconstruct (guardFold g0 (sortedPdict nl)) (sortedPdict nl) p x pr.1 < pr.2 ↔
        p (entryIdx nl pr) = 1) := by
  intro pr hpr
  have hsorted := sortedPdict_spec nl hnodup
  have hkeys : (pdKeys (sortedPdict nl)).Nodup := by
    rw [pdKeys_sortedPdict]
    exact pdictRaw_keys_nodup nl
  obtain ⟨hgpos, -, -⟩ := guardFold_spec (sortedPdict nl)
    (fun kv hkv => (hsorted kv hkv).1) g0 hg0
  obtain ⟨hlt, -, hpair⟩ := entryIdx_spec nl pr hpr
  obtain ⟨kv, hkv, hk1, hk2⟩ := sortedPdict_complete nl (entryIdx nl pr) hlt
  have hget : nl.get ⟨entryIdx nl pr, hlt⟩ =
      nl.getD (entryIdx nl pr) ⟨0, 0, []⟩ := by
    rw [List.getD_eq_getElem _ _ hlt, List.get_eq_getElem]
  have hpr1 : pr.1 = kv.1 := by
    rw [hk1, hget]
    exact (congrArg Prod.fst hpair).symm
  have hpr2 : pr.2 = (nl.get ⟨entryIdx nl pr, hlt⟩).threshold := by
    rw [hget]
    exact (congrArg Prod.snd hpair).symm
  have hrec := (reconstruct_apply (guardFold g0 (sortedPdict nl)) p
    (sortedPdict nl) x hkeys).1 kv hkv
  have hbin' : ∀ e ∈ kv.2.map (fun ti => (ti.1, p ti.2)), e.2 = 0 ∨ e.2 = 1 := by
    intro e he
    obtain ⟨ti, hti, hee⟩ := List.mem_map.mp he
    obtain ⟨hlt2, -, -⟩ := (hsorted kv hkv).2 ti hti
    rw [← hee]
    exact hbin ti.2 hlt2
  have hmono : (kv.2.map (fun ti => (ti.1, p ti.2))).Chain'
      (fun e f => e.2 ≤ f.2) := by
    rw [List.chain'_map]
    apply chain'_of_consecPairs
    intro ab hab
    exact hord kv hkv ab hab
  have hgap : (kv.2.map (fun ti => (ti.1, p ti.2))).Pairwise
      (fun e f => e.1 + guardFold g0 (sortedPdict nl) < f.1) := by
    rw [List.pairwise_map]
    exact pd_gap (sortedPdict nl) (fun kv' hkv' => (hsorted kv' hkv').1) g0 hg0 kv hkv
  have hcons := reconFold_consistent (guardFold g0 (sortedPdict nl)) hgpos
    (kv.2.map (fun ti => (ti.1, p ti.2))) (x kv.1) hbin' hmono hgap
    ((nl.get ⟨entryIdx nl pr, hlt⟩).threshold, p (entryIdx nl pr))
    (List.mem_map.mpr ⟨((nl.get ⟨entryIdx nl pr, hlt⟩).threshold, entryIdx nl pr),
      hk2, rfl⟩)
  rw [hpr1, hrec, hpr2]
  exact hcons

/-! ## Claim theorems -/

/-- C8: after compilation, the number of `node_list` entries (hence of
binary split variables) equals the number of distinct
`(feature, threshold-rounded-to-round_digits)` pairs over all internal
nodes of all trees; the entries' pairs are pairwise distinct; and for
every pair, the unique entry carrying it records exactly the occurrences
of the tree nodes having that rounded pair (so any two nodes with equal
rounded pairs are occurrences of the same entry and share its single
binary variable). -/
theorem C8_split_deduplication (d : ℕ) (trees : List JTree) :
    (compileBinary d trees).1.node_list.length =
      ((allOccs d trees).map (fun e => e.1)).toFinset.card ∧
    (pairsOf (compileBinary d trees).1.node_list).Nodup ∧
    (∀ pr, entryOccs (compileBinary d trees).1.node_list pr =
      ((allOccs d trees).filter (fun e => decide (e.1 = pr))).map (fun e => e.2)) := by
  obtain ⟨hWF, -, -, hocc, hmem⟩ := compileBinary_spec d trees
  refine ⟨?_, hWF.2, hocc⟩
  have h1 : (pairsOf (compileBinary d trees).1.node_list).toFinset =
      ((allOccs d trees).map (fun e => e.1)).toFinset := by
    ext pr
    simp only [List.mem_toFinset]
    exact hmem pr
  have h2 := List.toFinset_card_of_nodup hWF.2
  have h3 : (pairsOf (compileBinary d trees).1.node_list).length =
      (compileBinary d trees).1.node_list.length := by simp [pairsOf]
  rw [← h3, ← h2, h1]

/-- C1: the claim states that a multiclass query with true class `label`
runs the binary minimal-distance query once for every
`other_class ≠ label`, each on the attacker built from the
`(label, other_class)` pair of one-vs-all sub-ensembles; with 3 classes,
attacking class 0 should use the `(0, 1)` and `(0, 2)` pairwise
sub-models.  The code disagrees: the constructor loop appends `None` on
the diagonal *and* still appends a `(label, label)` attacker (the
`continue` is missing), shifting every later attacker one slot to the
right, so for `label = 0`, `n_classes = 3` the query uses the degenerate
`(0, 0)` attacker and the `(0, 1)` attacker, and the `(0, 2)` attacker
is never queried. -/
theorem C1_multiclass_queried_attackers :
    queriedAttackers 0 3 = [some (0, 0), some (0, 1)] ∧
      queriedAttackers 0 3 ≠ specQueriedAttackers 0 3 ∧
      specQueriedAttackers 0 3 = [some (0, 1), some (0, 2)] := by
  refine ⟨by decide, by decide, by decide⟩

/-- C2 counterexample: the claim's reading of the reconstruction nudges
("variable 1 means `feature ≥ threshold`": taken and below-threshold
pushes above, not-taken and at-or-above pushes below) disagrees with the
code at threshold `5`, solved value `1`, feature value `6` with guard
`1`: the code pushes the value below the threshold to `4`, while the
claim's rule would leave it at `6`. -/
theorem C2_reconstruction_counterexample :
    reconStep 1 6 (5, 1) = 4 ∧ reconStepClaimed 1 6 (5, 1) = 6 := by
  refine ⟨by norm_num [reconStep], by norm_num [reconStepClaimed]⟩

/-- C2 amended: a split variable equal to 1 means "input feature <
threshold" (it selects the `yes` branch).  The reconstruction therefore
nudges as follows: a variable rounding to taken (`> 0.5`) while the
feature value is at or above the threshold sets the feature just below
it (threshold minus guard), and a variable rounding to not-taken while
the feature value is below the threshold sets it just above (threshold
plus guard); in all cases the nudged value ends on the side of the
threshold that the rounded variable encodes. -/
theorem C2_reconstruction_amended (g xv t pv : ℚ) (hg : 0 < g) :
    (1 / 2 < pv ∧ t ≤ xv → reconStep g xv (t, pv) = t - g) ∧
      (pv ≤ 1 / 2 ∧ xv < t → reconStep g xv (t, pv) = t + g) ∧
      (1 / 2 < pv → reconStep g xv (t, pv) < t) ∧
      (pv ≤ 1 / 2 → t ≤ reconStep g xv (t, pv)) := by
  rw [reconStep_eq]
  refine ⟨?_, ?_, ?_, ?_⟩
  · rintro ⟨h1, h2⟩
    rw [if_pos h1, if_pos h2]
  · rintro ⟨h1, h2⟩
    rw [if_neg (not_lt.mpr h1), if_pos h2]
  · intro h1
    rw [if_pos h1]
    split_ifs with h2 <;> linarith
  · intro h1
    rw [if_neg (not_lt.mpr h1)]
    split_ifs with h2 <;> linarith

/-- Witness for the amended C2 theorem at guard 1, threshold 5, solved
value 1, feature value 6. -/
theorem C2_reconstruction_amended_witness :
    (0 : ℚ) < 1 ∧ ((1 : ℚ) / 2 < 1 ∧ (5 : ℚ) ≤ 6 → reconStep 1 6 (5, 1) = 5 - 1) := by
  have h := C2_reconstruction_amended 1 6 5 1 (by norm_num)
  exact ⟨by norm_num, h.1⟩

/-- C4: `attack` sets the constant objective `0`, optimizes, and its
return value is `true` exactly when the solver status is 3
(`GRB.INFEASIBLE`, no adversarial point within epsilon).  The
infeasible outcome is the ordinary `true` return of a total function,
not an exception. -/
theorem C4_attack_infeasible_return :
    (∀ status : ℕ, attackReturn status = true ↔ status = GRB_INFEASIBLE) ∧
      attackObjective = 0 := by
  refine ⟨fun status => ?_, rfl⟩
  simp [attackReturn]

/-- C6: whenever the manual prediction on the unperturbed sample already
disagrees with the asserted label, `optimal_adversarial_example` returns
the (copied) sample itself, for every possible solver outcome — the
solver is never consulted and no constraint added. -/
theorem C6_wrong_prediction_short_circuit (d : ℕ) (g0 pt : ℚ) (trees : List JTree)
    (x : ℕ → ℚ) (label : ℕ)
    (h : predBinary pt trees x ≠ label) :
    ∀ outcome : Option ((ℕ → ℚ) × (ℕ → ℚ)),
      optimal_adversarial_example d g0 pt trees outcome x label = some x := by
  intro outcome
  simp [optimal_adversarial_example, h]

/-- Witness for C6: a single-leaf ensemble predicting 1 on a sample
asserted to be of class 0. -/
theorem C6_wrong_prediction_short_circuit_witness :
    predBinary 0 [JTree.leaf 1] (fun _ => 3) ≠ 0 ∧
      optimal_adversarial_example 6 (5 / 1000000) 0 [JTree.leaf 1] none (fun _ => 3) 0 =
        some (fun _ => 3) := by
  have h : predBinary 0 [JTree.leaf 1] (fun _ => (3 : ℚ)) ≠ 0 := by
    norm_num [predBinary, check, check1]
  exact ⟨h, C6_wrong_prediction_short_circuit 6 (5 / 1000000) 0 [JTree.leaf 1]
    (fun _ => 3) 0 h none⟩

/-- C10: `epsilon = 0` is falsy for the `if epsilon:` branch, so the
distance variable `B` is created exactly as for `epsilon = None` (no
`epsilon - 0.0001` upper bound), and the feasible region of a
subsequent feasibility query is identical to the unbounded one — in
particular the perturbation magnitude is not constrained to be at most
0. -/
theorem C10_epsilon_zero_truthiness :
    bUB (some 0) = bUB none ∧
      ∀ (d : ℕ) (g0 pt : ℚ) (trees : List JTree) (x : ℕ → ℚ) (label : ℕ)
        (p l : ℕ → ℚ) (b : ℚ),
        attackFeasOK (some 0) d g0 pt trees x label p l b =
          attackFeasOK none d g0 pt trees x label p l b := by
  exact ⟨rfl, fun d g0 pt trees x label p l b => rfl⟩

/-- C7: the adaptive guard shrink of `KantchelianAttack.__init__`
(stated under the claim's proviso that the initial guard value is below
half the `1000.0` sentinel): (a) whenever a feature's minimum
consecutive threshold gap falls below twice the current guard value, the
guard value becomes one third of that gap; (b) the guard value is
monotonically non-increasing along the construction loop (and the later
queries never modify it — in this development they take it as a
read-only argument); (c) after construction, for every feature with at
least two unique splits, twice the final guard value is at most that
feature's minimum consecutive threshold gap, so a guard-sized
perturbation stays strictly inside any gap. -/
theorem C7_guard_shrink (d : ℕ) (g0 : ℚ) (trees : List JTree)
    (hg0 : 0 < g0) (hsent : 2 * g0 < 1000) :
    (∀ g kv, kv ∈ pdOf d trees → 0 < g → g ≤ g0 → 2 ≤ kv.2.length →
      minGapOf kv.2 < 2 * g → guardStep g kv = minGapOf kv.2 / 3) ∧
    (∀ n, guardFold g0 ((pdOf d trees).take (n + 1)) ≤
      guardFold g0 ((pdOf d trees).take n)) ∧
    (∀ kv ∈ pdOf d trees, 2 ≤ kv.2.length →
      2 * guardOf d g0 trees ≤ minGapOf kv.2) := by
  have hsorted := pdOf_sorted d trees
  refine ⟨?_, ?_, ?_⟩
  · intro g kv hkv hg hgle hlen hgap
    have hmd := minDiffOf_eq_min kv.2 hlen
    have hmd2 : minDiffOf kv.2 = minGapOf kv.2 := by
      rw [hmd]
      exact min_eq_right (by linarith)
    simp only [guardStep]
    rw [if_pos (by omega : 1 < kv.2.length), if_pos (by rw [hmd2]; linarith), hmd2]
  · intro n
    exact guardFold_take_mono (pdOf d trees) hsorted g0 hg0 n
  · intro kv hkv hlen
    have h1 := (guardFold_spec (pdOf d trees) hsorted g0 hg0).2.2 kv hkv hlen
    have h2 := minDiffOf_le_minGapOf kv.2 hlen
    unfold guardOf
    linarith

/-- Witness for C7 on a concrete two-stump ensemble with thresholds `1`
and `1.2` on feature 0, initial guard value `1/4`. -/
theorem C7_guard_shrink_witness :
    (0 : ℚ) < 1 / 4 ∧ 2 * (1 / 4 : ℚ) < 1000 ∧
      (∀ n, guardFold (1 / 4)
          ((pdOf 1 [JTree.node 0 1 (JTree.leaf 0) (JTree.leaf 1),
            JTree.node 0 (6 / 5) (JTree.leaf 0) (JTree.leaf 1)]).take (n + 1)) ≤
        guardFold (1 / 4)
          ((pdOf 1 [JTree.node 0 1 (JTree.leaf 0) (JTree.leaf 1),
            JTree.node 0 (6 / 5) (JTree.leaf 0) (JTree.leaf 1)]).take n)) := by
  have h := C7_guard_shrink 1 (1 / 4)
    [JTree.node 0 1 (JTree.leaf 0) (JTree.leaf 1),
      JTree.node 0 (6 / 5) (JTree.leaf 0) (JTree.leaf 1)]
    (by norm_num) (by norm_num)
  exact ⟨by norm_num, by norm_num, h.2.1⟩

/-- C9: satisfying the node-leaf coupling constraints emitted by the
constraint builder is exactly: for every occurrence of every unique
split, the two equalities `sum(left) - p = 0` and `sum(right) + p = 1`
when the occurrence is a tree root, and the two inequalities
`sum(left) - p ≤ 0` and `sum(right) + p ≤ 1` when it is a non-root
interior node, over the left/right leaf index lists recorded for that
occurrence by the compiler. -/
theorem C9_node_leaf_coupling (nl : List NodeW) (p l : ℕ → ℚ) :
    nodeLeafOK nl p l = true ↔
      ∀ j (hj : j < nl.length), ∀ o ∈ (nl.get ⟨j, hj⟩).leaves_lists,
        (o.root = true →
          ((o.left.map l).sum - p j = 0 ∧ (o.right.map l).sum + p j = 1)) ∧
        (o.root = false →
          ((o.left.map l).sum - p j ≤ 0 ∧ (o.right.map l).sum + p j ≤ 1)) :=
  nodeLeafOK_iff nl p l

theorem bBoundsOK_mono {e1 e2 b : ℚ} (h1 : 0 < e1) (h12 : e1 ≤ e2)
    (h : bBoundsOK (some e1) b = true) : bBoundsOK (some e2) b = true := by
  have ht1 : pyTruthy (some e1) = true := by
    simp only [pyTruthy, bne_iff_ne, ne_eq]
    exact ne_of_gt h1
  have ht2 : pyTruthy (some e2) = true := by
    simp only [pyTruthy, bne_iff_ne, ne_eq]
    exact ne_of_gt (lt_of_lt_of_le h1 h12)
  unfold bBoundsOK bUB at h ⊢
  rw [ht1] at h
  rw [ht2, if_pos rfl]
  rw [if_pos rfl] at h
  simp only [Bool.and_eq_true, decide_eq_true_eq, Option.getD_some] at h ⊢
  exact ⟨h.1, by linarith [h.2]⟩

/-- C5: epsilon monotonicity of the feasibility query.  For fixed
ensemble, sample and label and `0 < epsilon1 ≤ epsilon2`, if `attack`
reports the sample robust (its MILP infeasible) at `epsilon2`, it also
reports it robust at `epsilon1`: the two MILPs differ only in the upper
bound `epsilon - 0.0001` of the distance variable, so the feasible
region at `epsilon1` is contained in the one at `epsilon2`. -/
theorem C5_epsilon_monotonicity (d : ℕ) (g0 pt : ℚ) (trees : List JTree)
    (x : ℕ → ℚ) (label : ℕ) (e1 e2 : ℚ)
    (h1 : 0 < e1) (h12 : e1 ≤ e2)
    (hrob : RobustAt (some e2) d g0 pt trees x label) :
    RobustAt (some e1) d g0 pt trees x label := by
  intro hfeas1
  apply hrob
  obtain ⟨p, l, b, hf⟩ := hfeas1
  refine ⟨p, l, b, ?_⟩
  unfold attackFeasOK at hf ⊢
  rw [Bool.and_eq_true] at hf ⊢
  exact ⟨hf.1, bBoundsOK_mono h1 h12 hf.2⟩

/-- Witness for C5: the empty ensemble with `pred_threshold = 0` and
label 1 is robust at every radius (the mislabel constraint
`0 ≤ -guard_val` alone is unsatisfiable), in particular at radius 2,
hence by monotonicity at radius 1. -/
theorem C5_epsilon_monotonicity_witness :
    (0 : ℚ) < 1 ∧ (1 : ℚ) ≤ 2 ∧
      RobustAt (some 1) 6 (5 / 1000000) 0 [] (fun _ => 0) 1 := by
  have hrob2 : RobustAt (some 2) 6 (5 / 1000000) 0 [] (fun _ => 0) 1 := by
    rintro ⟨p, l, b, hf⟩
    simp only [attackFeasOK, compileBinary, List.foldl_nil, CState.empty,
      sortedPdict, pdictRaw, List.enum_nil, pdKeys, guardFold,
      binaryVarsOK, leafBoundsOK, orderingOK, leafSumOK, nodeLeafOK, mislabelOK,
      linfOK, bBoundsOK, List.length_nil, List.range_zero, List.all_nil,
      List.enum_nil, List.map_nil, List.sum_nil, Bool.and_eq_true,
      decide_eq_true_eq] at hf
    norm_num at hf
  exact ⟨by norm_num, by norm_num,
    C5_epsilon_monotonicity 6 (5 / 1000000) 0 [] (fun _ => 0) 1 1 2
      (by norm_num) (by norm_num) hrob2⟩

/-- C3: soundness of reconstruction: for a sample whose manual
prediction equals the asserted label, if `optimal_adversarial_example`
returns a perturbed input `x'` rebuilt from a feasible assignment
`(p, l, b)` of the MILP's split and leaf variables (exact arithmetic,
thresholds unchanged by the rounding), then the manual re-traversal
`check` of the trees on `x'` compared against `pred_threshold` yields a
predicted label different from the asserted one. -/
theorem C3_soundness (d : ℕ) (g0 pt : ℚ) (trees : List JTree) (x x' : ℕ → ℚ)
    (label : ℕ) (p l : ℕ → ℚ) (b : ℚ)
    (hg0 : 0 < g0)
    (hround : ∀ th ∈ allThresholds trees, pyRound d th = th)
    (hpred : predBinary pt trees x = label)
    (hfeas : attackFeasOK none d g0 pt trees x label p l b = true)
    (hret : optimal_adversarial_example d g0 pt trees (some (p, l)) x label = some x') :
    predBinary pt trees x' ≠ label := by
  simp only [attackFeasOK, Bool.and_eq_true] at hfeas
  obtain ⟨⟨⟨⟨⟨⟨⟨hbin, hlb⟩, hord⟩, hls⟩, hnl⟩, hmis⟩, hlinf⟩, hbb⟩ := hfeas
  obtain ⟨hWF, hlv, hlc, hocc2, hmem⟩ := compileBinary_spec d trees
  have hx' : reconstruct (guardFold g0 (sortedPdict (compileBinary d trees).1.node_list))
      (sortedPdict (compileBinary d trees).1.node_list) p x = x' := by
    simp only [optimal_adversarial_example, hpred] at hret
    rw [if_neg (fun h => h rfl)] at hret
    exact Option.some.inj hret
  have hlen : (compileBinary d trees).1.leaf_v_list.length =
      (trees.map JTree.numLeaves).sum := by
    rw [hlv]
    exact totalLeaves_eq trees
  have hcontrib : ((List.range' 0 ((trees.map JTree.numLeaves).sum)).map
      (fun j => (compileBinary d trees).1.leaf_v_list.getD j 0 * l j)).sum
      = check x' trees := by
    have h := ensemble_contrib d x' l
      (fun pr => p (entryIdx (compileBinary d trees).1.node_list pr)) trees 0
      (fun j => (compileBinary d trees).1.leaf_v_list.getD j 0)
      hround
      (by
        intro pr hpr
        have hmem2 : pr ∈ pairsOf (compileBinary d trees).1.node_list :=
          (hmem pr).mpr hpr
        obtain ⟨hlt, -, -⟩ := entryIdx_spec _ pr hmem2
        exact binaryVarsOK_spec hbin _ hlt)
      (by
        intro pr hpr
        have hmem2 : pr ∈ pairsOf (compileBinary d trees).1.node_list :=
          (hmem pr).mpr hpr
        have hc := recon_consistency g0 (compileBinary d trees).1.node_list p x hg0
          hWF.2 (binaryVarsOK_spec hbin) (orderingOK_spec hord) pr hmem2
        rw [hx'] at hc
        exact hc)
      (fun e he => occ_constraints d trees p l hnl e he)
      (by
        intro j hj
        rw [List.mem_range'] at hj
        obtain ⟨i, hi, hji⟩ := hj
        exact (leafBoundsOK_spec hlb j (by rw [hlen]; omega)).1)
      (by
        intro i hi
        have h := leafSumOK_spec hls i
          (by rw [hlc, List.length_map, List.length_range]; omega)
        rw [hlc, getD_map_range _ _ _ (by omega), getD_map_range _ _ _ (by omega)] at h
        unfold idxRange at h
        rw [offsetOf_succ trees i hi] at h
        have harith : offsetOf trees i + (trees.get ⟨i, hi⟩).numLeaves -
            offsetOf trees i = (trees.get ⟨i, hi⟩).numLeaves := by omega
        rw [harith] at h
        rw [Nat.zero_add]
        exact h)
      (by
        intro k hk
        show (compileBinary d trees).1.leaf_v_list.getD (0 + k) 0 = _
        rw [Nat.zero_add, hlv])
    exact h
  have hsval : ((((compileBinary d trees).1.leaf_v_list).enum).map
      (fun jv => jv.2 * l jv.1)).sum = check x' trees := by
    rw [enum_weight_sum l, hlen]
    exact hcontrib
  have hgpos : 0 < guardFold g0 (sortedPdict (compileBinary d trees).1.node_list) :=
    (guardFold_spec _
      (fun kv hkv => (sortedPdict_spec _ hWF.2 kv hkv).1) g0 hg0).1
  obtain ⟨hm1, hm2⟩ := mislabelOK_spec hmis
  by_cases hl1 : label = 1
  · have hms := hm1 hl1
    rw [hsval] at hms
    unfold predBinary
    rw [if_neg (not_le.mpr (by linarith))]
    omega
  · have hms := hm2 hl1
    rw [hsval] at hms
    unfold predBinary
    rw [if_pos (by linarith)]
    omega

/-- Witness for C3: a one-tree ensemble `x0 < 5 ? -1 : 1`, sample `x = 3`
(predicted `0`), threshold `0`, guard start `1`, and the feasible MILP
assignment `p = 0`, `l = (0, 1)`, `b = 2`; the returned perturbed input
sets feature `0` to `6` and is predicted `1 ≠ 0`. -/
theorem C3_soundness_witness :
    optimal_adversarial_example 0 1 0 [JTree.node 0 5 (JTree.leaf (-1)) (JTree.leaf 1)]
        (some (fun _ => 0, fun j => if j = 1 then 1 else 0)) (fun _ => 3) 0 =
      some (fun a => if a = 0 then 6 else 3) ∧
    predBinary 0 [JTree.node 0 5 (JTree.leaf (-1)) (JTree.leaf 1)]
        (fun a => if a = 0 then 6 else 3) ≠ 0 := by
  have hcomp : compileBinary 0 [JTree.node 0 5 (JTree.leaf (-1)) (JTree.leaf 1)] =
      (⟨[⟨0, 5, [⟨[0], [1], true⟩]⟩], [-1, 1], [((0, 5), 0)]⟩, [0, 2]) := by
    norm_num [compileBinary, compileStep, dfs, pyRound, lookupNC, CState.empty]
  have hpd : sortedPdict [(⟨0, 5, [⟨[0], [1], true⟩]⟩ : NodeW)] = [(0, [(5, 0)])] := by
    norm_num [sortedPdict, pdictRaw, pdStep, sortByTh, List.insertionSort]
  have hg : guardFold 1 [(0, [(5, 0)])] = 1 := by
    norm_num [guardFold, guardStep]
  have hpred : predBinary 0 [JTree.node 0 5 (JTree.leaf (-1)) (JTree.leaf 1)]
      (fun _ => 3) = 0 := by
    norm_num [predBinary, check, check1]
  have hrecon : reconstruct 1 [(0, [(5, 0)])] (fun _ => (0 : ℚ)) (fun _ => (3 : ℚ)) =
      fun a => if a = 0 then 6 else 3 := by
    funext a
    by_cases ha : a = 0
    · subst ha
      norm_num [reconstruct, reconFold, reconStep, Function.update_apply]
    · norm_num [reconstruct, reconFold, reconStep, Function.update_apply, ha]
  have hret : optimal_adversarial_example 0 1 0
      [JTree.node 0 5 (JTree.leaf (-1)) (JTree.leaf 1)]
      (some (fun _ => 0, fun j => if j = 1 then 1 else 0)) (fun _ => 3) 0 =
      some (fun a => if a = 0 then 6 else 3) := by
    simp only [optimal_adversarial_example, hpred]
    rw [if_neg (fun h => h rfl)]
    simp only [hcomp, hpd, hg, hrecon]
  have hround : ∀ th ∈ allThresholds [JTree.node 0 5 (JTree.leaf (-1)) (JTree.leaf 1)],
      pyRound 0 th = th := by
    intro th hth
    have h5 : th = 5 := by
      simpa [allThresholds, treeThresholds] using hth
    subst h5
    norm_num [pyRound]
  have hfeas : attackFeasOK none 0 1 0
      [JTree.node 0 5 (JTree.leaf (-1)) (JTree.leaf 1)]
      (fun _ => 3) 0 (fun _ => 0) (fun j => if j = 1 then 1 else 0) 2 = true := by
    simp only [attackFeasOK, hcomp, hpd, hg]
    norm_num [binaryVarsOK, leafBoundsOK, orderingOK, consecPairs, leafSumOK, idxRange,
      nodeLeafOK, occConstrOK, mislabelOK, linfOK, linfConstrOK, wIntervals, wEntry,
      axisLo, axisHi, diffW, bBoundsOK, pyTruthy, bUB, List.range', List.enum,
      List.enumFrom, List.range_succ]
  exact ⟨hret, C3_soundness 0 1 0 [JTree.node 0 5 (JTree.leaf (-1)) (JTree.leaf 1)]
    (fun _ => 3) (fun a => if a = 0 then 6 else 3) 0 (fun _ => 0)
    (fun j => if j = 1 then 1 else 0) 2 (by norm_num) hround hpred hfeas hret⟩

end GROOT
